import Mathlib

/-!
Verification development for the `folder_tree` manager
(`src/app/utils/folder_tree/manager.py`).

The Python module walks a nested dict ("tree structure") against the local
filesystem.  We shallowly embed it:

* A path is a list of atomic name segments (`Path`); `pathStr` renders it the
  way `str(pathlib.Path(...))` joins parts with "/".  `_resolve_path` performs
  environment/home expansion and absolute resolution, which is outside the
  model; resolved base paths are taken as given segment lists.
* A tree structure (a Python dict whose values are nested dicts, strings,
  ints, or None) is the inductive `Entries`, flattened so that each entry
  carries its value shape directly; iteration order of the dict is the order
  of the constructors.  `Val` is the value view used by lookups.
* The filesystem is an association list from paths to entries (directory or
  file-with-content), together with an explicit trace of mutation events
  (`Event`) recording every adapter call that changes or attempts to change
  the backend (mkdir, chmod, file write, removal attempts, move).
* Fallible operations return `Except TreeError` / `Option`.

The module imports its exception classes from `app.utils.folder_tree.exceptions`,
which is not part of the sources; `TreeError` below names its constructors
after the error taxonomy of the specification (BasePathMissingError,
ValidationError, TreeConstructionError, MigrationError), mapping the two
raise sites of `manager.py` (`FolderTreeError` for a missing base path /
construction failure, `ValidationError` for missing descendants) onto it.
-/

namespace FolderTree

/-- A backend path: a list of atomic name segments (model of `pathlib.Path`). -/
abbrev Path := List String

/-- The string rendering of a path: segments joined by "/", as `str(p)` does
for the parts of a POSIX `pathlib.Path`. -/
def pathStr : Path → String
  | [] => ""
  | [a] => a
  | a :: b :: rest => a ++ "/" ++ pathStr (b :: rest)

/-- `len(str(p))`, the sort key used by `cleanup_folder_tree`. -/
def strLen (p : Path) : Nat := (pathStr p).length

/-- Does a key begin with the metadata marker (`key.startswith("_")`): its
first character is an underscore. -/
def keyIsMeta (k : String) : Bool :=
  match k.data with
  | [] => false
  | c :: _ => c = '_'

/-- A nested tree structure: the Python dict `TreeStructure`, flattened so the
value shape (nested dict / str / int / None) is part of the constructor.
Constructor order is dict iteration (= insertion) order. -/
inductive Entries where
  | nil : Entries
  | dict : String → Entries → Entries → Entries
  | str : String → String → Entries → Entries
  | int : String → Int → Entries → Entries
  | null : String → Entries → Entries
deriving DecidableEq, Repr

/-- The value stored under one key of a tree structure (view type). -/
inductive Val where
  | dict : Entries → Val
  | str : String → Val
  | int : Int → Val
  | null : Val
deriving DecidableEq, Repr

/-- Lookup of a key in a tree structure (first occurrence; a Python dict has
unique keys, see `wfKeys`). -/
def entryLookup : Entries → String → Option Val
  | Entries.nil, _ => Option.none
  | Entries.dict k sub rest, key =>
      if k = key then Option.some (Val.dict sub) else entryLookup rest key
  | Entries.str k s rest, key =>
      if k = key then Option.some (Val.str s) else entryLookup rest key
  | Entries.int k n rest, key =>
      if k = key then Option.some (Val.int n) else entryLookup rest key
  | Entries.null k rest, key =>
      if k = key then Option.some Val.null else entryLookup rest key

/-- The keys of one level of a tree structure, in iteration order. -/
def keysOf : Entries → List String
  | Entries.nil => []
  | Entries.dict k _ rest => k :: keysOf rest
  | Entries.str k _ rest => k :: keysOf rest
  | Entries.int k _ rest => k :: keysOf rest
  | Entries.null k rest => k :: keysOf rest

/-- Well-formedness inherited from Python dicts: keys are unique within each
mapping, recursively. -/
def wfKeys : Entries → Bool
  | Entries.nil => true
  | Entries.dict k sub rest => !(keysOf rest).contains k && wfKeys sub && wfKeys rest
  | Entries.str k _ rest => !(keysOf rest).contains k && wfKeys rest
  | Entries.int k _ rest => !(keysOf rest).contains k && wfKeys rest
  | Entries.null k rest => !(keysOf rest).contains k && wfKeys rest

/-- Resolve a chain of keys through nested dicts to the value it addresses. -/
def chainLookup : Entries → List String → Option Val
  | _, [] => Option.none
  | st, [k] => entryLookup st k
  | st, k :: k1 :: rest =>
      match entryLookup st k with
      | Option.some (Val.dict sub) => chainLookup sub (k1 :: rest)
      | _ => Option.none

/-- A filesystem entry: a directory, or a file with its text content. -/
inductive Entry where
  | dir : Entry
  | file : String → Entry
deriving DecidableEq, Repr

/-- The backend state: a finite map from paths to entries. -/
abbrev FS := List (Path × Entry)

def fsLookup : FS → Path → Option Entry
  | [], _ => Option.none
  | (q, e) :: rest, p => if q = p then Option.some e else fsLookup rest p

/-- `exists(path)` of the adapter. -/
def fsExists (fs : FS) (p : Path) : Bool := (fsLookup fs p).isSome

/-- Remove a path from the map. -/
def fsErase (fs : FS) (p : Path) : FS := fs.filter (fun qe => !(qe.fst == p))

/-- Map update (insert or replace). -/
def fsSet (fs : FS) (p : Path) (e : Entry) : FS := (p, e) :: fsErase fs p

/-- Does a directory path have any entry strictly below it?  (`rmdir` only
works on empty directories.) -/
def dirHasChildren (fs : FS) (p : Path) : Bool :=
  fs.any (fun qe => p.isPrefixOf qe.fst && !(qe.fst == p))

/-- The nonempty prefixes of a path, shortest first. -/
def pathPrefixes : Path → List Path
  | [] => []
  | a :: rest => [a] :: (pathPrefixes rest).map (fun q => a :: q)

/-- Make one path a directory: no-op if it already is one, error if it exists
as a file (as `Path.mkdir(exist_ok=True)` raises when the target is not a
directory). -/
def ensureDir (fs : FS) (q : Path) : Option FS :=
  match fsLookup fs q with
  | Option.some Entry.dir => Option.some fs
  | Option.some (Entry.file _) => Option.none
  | Option.none => Option.some (fsSet fs q Entry.dir)

def ensureDirs (fs : FS) : List Path → Option FS
  | [] => Option.some fs
  | q :: rest =>
      match ensureDir fs q with
      | Option.none => Option.none
      | Option.some fs1 => ensureDirs fs1 rest

/-- `p.mkdir(parents=True, exist_ok=True)`: create the path and every missing
ancestor as directories; fails if any of them exists as a file. -/
def mkdirParents (fs : FS) (p : Path) : Option FS := ensureDirs fs (pathPrefixes p)

/-- `open(p, "w").write(c)`: create or overwrite the file; fails if the target
is a directory or its parent is not an existing directory. -/
def writeFileFS (fs : FS) (p : Path) (c : String) : Option FS :=
  match fsLookup fs p with
  | Option.some Entry.dir => Option.none
  | _ =>
      if p.dropLast.isEmpty then Option.some (fsSet fs p (Entry.file c))
      else
        match fsLookup fs p.dropLast with
        | Option.some Entry.dir => Option.some (fsSet fs p (Entry.file c))
        | _ => Option.none

/-- The error taxonomy of the design.  `manager.py` imports its exception
classes from a module that is not among the sources; following the
specification, the base-path-missing raise of `validate_folder_tree` is
`basePathMissingError`, its missing-descendants raise is `validationError`,
the creation-failure raises of `create_folder_tree` are
`treeConstructionError`, and `migrate` failures are `migrationError`. -/
inductive TreeError where
  | basePathMissingError : String → TreeError
  | validationError : String → TreeError
  | treeConstructionError : String → TreeError
  | migrationError : String → TreeError
deriving DecidableEq, Repr

/-- One adapter call that mutates (or attempts to mutate) the backend. -/
inductive Event where
  | mkdir : Path → Event
  | chmod : Path → Int → Event
  | write : Path → String → Event
  | removeFile : Path → Event
  | removeDir : Path → Event
  | move : Path → Path → Event
deriving DecidableEq, Repr

/-- The result of `create_folder_tree`: the input dict with every non-metadata
value replaced by the created `Path` (leaf) or the recursive result (node). -/
inductive ResultTree where
  | nil : ResultTree
  | leaf : String → Path → ResultTree → ResultTree
  | node : String → ResultTree → ResultTree → ResultTree
deriving DecidableEq, Repr

/-- File content written for a scalar string value:
`value if isinstance(value, str) and value not in ("file", "") else ""`. -/
def contentOfStr (s : String) : String := if s = "file" ∨ s = "" then "" else s

/-- Content written for a general value (non-string scalars give ""). -/
def contentOfVal : Val → String
  | Val.str s => contentOfStr s
  | _ => ""

/-- The `_perms` metadata of a directory value, when present with an integer
value (`if "_perms" in value and isinstance(perms, int)`). -/
def permsOf (sub : Entries) : Option Int :=
  match entryLookup sub "_perms" with
  | Option.some (Val.int m) => Option.some m
  | _ => Option.none

/-- The mutation phase for one directory entry of `create_folder_tree`:
`current_path.mkdir(parents=True, exist_ok=True)` followed by the optional
`os.chmod(current_path, perms)`. -/
def createDirStep (fs : FS) (current : Path) (sub : Entries) :
    Except TreeError (FS × List Event) :=
  match mkdirParents fs current with
  | Option.none =>
      Except.error (TreeError.treeConstructionError ("Failed to create " ++ pathStr current))
  | Option.some fsA =>
      match permsOf sub with
      | Option.some m => Except.ok (fsA, [Event.mkdir current, Event.chmod current m])
      | Option.none => Except.ok (fsA, [Event.mkdir current])

/-- The mutation phase for one file entry of `create_folder_tree`:
`current_path.parent.mkdir(parents=True, exist_ok=True)`, then write the file
only when it does not exist or `overwrite` is set. -/
def createFileStep (fs : FS) (current : Path) (content : String) (overwrite : Bool) :
    Except TreeError (FS × List Event) :=
  match mkdirParents fs current.dropLast with
  | Option.none =>
      Except.error (TreeError.treeConstructionError ("Failed to create " ++ pathStr current))
  | Option.some fsA =>
      if !(fsExists fsA current) || overwrite then
        match writeFileFS fsA current content with
        | Option.none =>
            Except.error (TreeError.treeConstructionError ("Failed to create " ++ pathStr current))
        | Option.some fsB =>
            Except.ok (fsB, [Event.mkdir current.dropLast, Event.write current content])
      else Except.ok (fsA, [Event.mkdir current.dropLast])

/-- The `for key, value in structure.items()` loop of `create_folder_tree`.
Metadata keys (leading underscore) are skipped.  For a dict value the entry is
created (`createDirStep`) and then `create_folder_tree` is re-entered on the
child path; that recursive call is written inline here (its leading base
`mkdir` and its own loop) so that the recursion is structural — the lemma
`createLoop_dict_eq` states that the inline code is exactly the wrapper
`create_folder_tree`.  In dry-run mode nothing mutates but directory children
are still recursed into. -/
def createLoop (fs : FS) (base : Path) (st : Entries) (overwrite dry_run : Bool) :
    Except TreeError (ResultTree × FS × List Event) :=
  match st with
  | Entries.nil => Except.ok (ResultTree.nil, fs, [])
  | Entries.dict k sub rest =>
      if keyIsMeta k then createLoop fs base rest overwrite dry_run
      else
        if dry_run then
          match createLoop fs (base ++ [k]) sub overwrite dry_run with
          | Except.error e => Except.error e
          | Except.ok (rSub, fs1, ev1) =>
            match createLoop fs1 base rest overwrite dry_run with
            | Except.error e => Except.error e
            | Except.ok (rRest, fs2, ev2) =>
                Except.ok (ResultTree.node k rSub rRest, fs2, ev1 ++ ev2)
        else
          match createDirStep fs (base ++ [k]) sub with
          | Except.error e => Except.error e
          | Except.ok (fsA, evA) =>
            match mkdirParents fsA (base ++ [k]) with
            | Option.none =>
                Except.error (TreeError.treeConstructionError
                  ("Failed to create base directory " ++ pathStr (base ++ [k])))
            | Option.some fsB =>
              match createLoop fsB (base ++ [k]) sub overwrite dry_run with
              | Except.error e => Except.error e
              | Except.ok (rSub, fsC, evB) =>
                match createLoop fsC base rest overwrite dry_run with
                | Except.error e => Except.error e
                | Except.ok (rRest, fsD, evC) =>
                    Except.ok (ResultTree.node k rSub rRest, fsD,
                      evA ++ (Event.mkdir (base ++ [k]) :: evB) ++ evC)
  | Entries.str k s rest =>
      if keyIsMeta k then createLoop fs base rest overwrite dry_run
      else
        if dry_run then
          match createLoop fs base rest overwrite dry_run with
          | Except.error e => Except.error e
          | Except.ok (rRest, fs1, ev1) =>
              Except.ok (ResultTree.leaf k (base ++ [k]) rRest, fs1, ev1)
        else
          match createFileStep fs (base ++ [k]) (contentOfStr s) overwrite with
          | Except.error e => Except.error e
          | Except.ok (fsA, evA) =>
            match createLoop fsA base rest overwrite dry_run with
            | Except.error e => Except.error e
            | Except.ok (rRest, fsC, evC) =>
                Except.ok (ResultTree.leaf k (base ++ [k]) rRest, fsC, evA ++ evC)
  | Entries.int k _ rest =>
      if keyIsMeta k then createLoop fs base rest overwrite dry_run
      else
        if dry_run then
          match createLoop fs base rest overwrite dry_run with
          | Except.error e => Except.error e
          | Except.ok (rRest, fs1, ev1) =>
              Except.ok (ResultTree.leaf k (base ++ [k]) rRest, fs1, ev1)
        else
          match createFileStep fs (base ++ [k]) "" overwrite with
          | Except.error e => Except.error e
          | Except.ok (fsA, evA) =>
            match createLoop fsA base rest overwrite dry_run with
            | Except.error e => Except.error e
            | Except.ok (rRest, fsC, evC) =>
                Except.ok (ResultTree.leaf k (base ++ [k]) rRest, fsC, evA ++ evC)
  | Entries.null k rest =>
      if keyIsMeta k then createLoop fs base rest overwrite dry_run
      else
        if dry_run then
          match createLoop fs base rest overwrite dry_run with
          | Except.error e => Except.error e
          | Except.ok (rRest, fs1, ev1) =>
              Except.ok (ResultTree.leaf k (base ++ [k]) rRest, fs1, ev1)
        else
          match createFileStep fs (base ++ [k]) "" overwrite with
          | Except.error e => Except.error e
          | Except.ok (fsA, evA) =>
            match createLoop fsA base rest overwrite dry_run with
            | Except.error e => Except.error e
            | Except.ok (rRest, fsC, evC) =>
                Except.ok (ResultTree.leaf k (base ++ [k]) rRest, fsC, evA ++ evC)

/-- `create_folder_tree(base_path, structure, overwrite, dry_run)`: unless in
dry-run mode, ensure the base directory (`base.mkdir(parents=True,
exist_ok=True)`), then run the entry loop.  Returns the result tree, the new
backend state, and the trace of adapter mutation calls. -/
def create_folder_tree (fs : FS) (base : Path) (st : Entries) (overwrite dry_run : Bool) :
    Except TreeError (ResultTree × FS × List Event) :=
  if dry_run then createLoop fs base st overwrite dry_run
  else
    match mkdirParents fs base with
    | Option.none =>
        Except.error (TreeError.treeConstructionError
          ("Failed to create base directory " ++ pathStr base))
    | Option.some fs1 =>
      match createLoop fs1 base st overwrite dry_run with
      | Except.error e => Except.error e
      | Except.ok (r, fs2, ev) => Except.ok (r, fs2, Event.mkdir base :: ev)

/-- Is there any non-metadata key left?  (Used to detect the last displayed
sibling, `i == count - 1` over the filtered keys.) -/
def hasNonMeta : Entries → Bool
  | Entries.nil => false
  | Entries.dict k _ rest => !(keyIsMeta k) || hasNonMeta rest
  | Entries.str k _ rest => !(keyIsMeta k) || hasNonMeta rest
  | Entries.int k _ rest => !(keyIsMeta k) || hasNonMeta rest
  | Entries.null k rest => !(keyIsMeta k) || hasNonMeta rest

/-- Body of `generate_tree_summary`: one line per non-metadata key with a
box-drawing connector, recursing into dict values with extended indent. -/
def summaryGo (indent : String) : Entries → String
  | Entries.nil => ""
  | Entries.dict k sub rest =>
      if keyIsMeta k then summaryGo indent rest
      else
        let isLast := !(hasNonMeta rest)
        let connector := if isLast then "└── " else "├── "
        indent ++ connector ++ k ++ "\n" ++
          summaryGo (indent ++ (if isLast then "    " else "│   ")) sub ++
          summaryGo indent rest
  | Entries.str k _ rest =>
      if keyIsMeta k then summaryGo indent rest
      else
        let isLast := !(hasNonMeta rest)
        let connector := if isLast then "└── " else "├── "
        indent ++ connector ++ k ++ "\n" ++ summaryGo indent rest
  | Entries.int k _ rest =>
      if keyIsMeta k then summaryGo indent rest
      else
        let isLast := !(hasNonMeta rest)
        let connector := if isLast then "└── " else "├── "
        indent ++ connector ++ k ++ "\n" ++ summaryGo indent rest
  | Entries.null k rest =>
      if keyIsMeta k then summaryGo indent rest
      else
        let isLast := !(hasNonMeta rest)
        let connector := if isLast then "└── " else "├── "
        indent ++ connector ++ k ++ "\n" ++ summaryGo indent rest

/-- `generate_tree_summary(structure, indent, last)`; the `last` parameter of
the Python function is never read in its body. -/
def generate_tree_summary (st : Entries) (indent : String) (last : Bool) : String :=
  summaryGo indent st

/-- `_collect` of `cleanup_folder_tree`: every non-metadata entry path, in
traversal order (parent before its subtree, then later siblings).  Keys are
treated as atomic path segments here (`cb ++ [k]`), which agrees with
pathlib's `current_base / key` exactly for plain names; `collectPathsPy`
keeps the pathlib join exact for the claim sensitive to the difference. -/
def collectPaths (cb : Path) : Entries → List Path
  | Entries.nil => []
  | Entries.dict k sub rest =>
      if keyIsMeta k then collectPaths cb rest
      else (cb ++ [k]) :: (collectPaths (cb ++ [k]) sub ++ collectPaths cb rest)
  | Entries.str k _ rest =>
      if keyIsMeta k then collectPaths cb rest
      else (cb ++ [k]) :: collectPaths cb rest
  | Entries.int k _ rest =>
      if keyIsMeta k then collectPaths cb rest
      else (cb ++ [k]) :: collectPaths cb rest
  | Entries.null k rest =>
      if keyIsMeta k then collectPaths cb rest
      else (cb ++ [k]) :: collectPaths cb rest

/-- Stable insertion into a list sorted by descending `strLen`; an element
goes after every earlier element of greater-or-equal key, which reproduces the
output of Python's stable `list.sort(key=len(str(p)), reverse=True)`. -/
def insertDesc (p : Path) : List Path → List Path
  | [] => [p]
  | q :: rest => if strLen q ≤ strLen p then p :: q :: rest else q :: insertDesc p rest

/-- Stable sort by descending `strLen`. -/
def sortDesc : List Path → List Path
  | [] => []
  | p :: rest => insertDesc p (sortDesc rest)

/-- One iteration of the deletion loop of `cleanup_folder_tree`: skip the path
if it no longer exists; unlink a file; `rmdir` a directory, which is attempted
(the event is recorded) but succeeds only when the directory is empty — a
failure is caught and logged, leaving the state unchanged. -/
def deleteStep (fs : FS) (p : Path) : FS × List Event :=
  if fsExists fs p then
    match fsLookup fs p with
    | Option.some (Entry.file _) => (fsErase fs p, [Event.removeFile p])
    | Option.some Entry.dir =>
        if dirHasChildren fs p then (fs, [Event.removeDir p])
        else (fsErase fs p, [Event.removeDir p])
    | Option.none => (fs, [])
  else (fs, [])

/-- The deletion loop over the sorted path list. -/
def deleteAll (fs : FS) : List Path → FS × List Event
  | [] => (fs, [])
  | p :: rest =>
      let s1 := deleteStep fs p
      let s2 := deleteAll s1.fst rest
      (s2.fst, s1.snd ++ s2.snd)

/-- The backend state at each iteration of the deletion loop, paired with the
path handled there. -/
def runStates (fs : FS) : List Path → List (FS × Path)
  | [] => []
  | p :: rest => (fs, p) :: runStates (deleteStep fs p).fst rest

/-- `cleanup_folder_tree(base_path, structure, confirm)`: a guarded no-op
unless `confirm` is set; otherwise collect every entry path, sort by
descending string length, and best-effort delete in that order. -/
def cleanup_folder_tree (fs : FS) (base : Path) (st : Entries) (confirm : Bool) :
    FS × List Event :=
  if !confirm then (fs, [])
  else deleteAll fs (sortDesc (collectPaths base st))

/-- Dict assignment `m[k] = p`: replace in place or append. -/
def setAssoc : List (String × Path) → String → Path → List (String × Path)
  | [], k, p => [(k, p)]
  | (k1, p1) :: rest, k, p =>
      if k1 = k then (k, p) :: rest else (k1, p1) :: setAssoc rest k p

/-- Dict merge `m.update(kvs)`. -/
def mergeMap (m : List (String × Path)) (kvs : List (String × Path)) :
    List (String × Path) :=
  kvs.foldl (fun acc kv => setAssoc acc kv.fst kv.snd) m

/-- The loop of `get_flat_path_map`, threading the dict being built: for each
non-metadata key, assign `flat_map[full_key] = base / key` and, for dict
values, merge the recursively flattened child map. -/
def flatGo (base : Path) (st : Entries) (sep parentKey : String)
    (acc : List (String × Path)) : List (String × Path) :=
  match st with
  | Entries.nil => acc
  | Entries.dict k sub rest =>
      if keyIsMeta k then flatGo base rest sep parentKey acc
      else
        let fullKey := if parentKey = "" then k else parentKey ++ sep ++ k
        let acc1 := setAssoc acc fullKey (base ++ [k])
        let acc2 := mergeMap acc1 (flatGo (base ++ [k]) sub sep fullKey [])
        flatGo base rest sep parentKey acc2
  | Entries.str k _ rest =>
      if keyIsMeta k then flatGo base rest sep parentKey acc
      else
        let fullKey := if parentKey = "" then k else parentKey ++ sep ++ k
        flatGo base rest sep parentKey (setAssoc acc fullKey (base ++ [k]))
  | Entries.int k _ rest =>
      if keyIsMeta k then flatGo base rest sep parentKey acc
      else
        let fullKey := if parentKey = "" then k else parentKey ++ sep ++ k
        flatGo base rest sep parentKey (setAssoc acc fullKey (base ++ [k]))
  | Entries.null k rest =>
      if keyIsMeta k then flatGo base rest sep parentKey acc
      else
        let fullKey := if parentKey = "" then k else parentKey ++ sep ++ k
        flatGo base rest sep parentKey (setAssoc acc fullKey (base ++ [k]))

/-- `get_flat_path_map(base_path, structure, separator, parent_key)`. -/
def get_flat_path_map (base : Path) (st : Entries) (sep parentKey : String) :
    List (String × Path) :=
  flatGo base st sep parentKey []

/-- `_check` of `validate_folder_tree`: walk every non-metadata key depth-first
pre-order, appending `str(p)` for each missing path, never short-circuiting. -/
def checkMissing (fs : FS) (cb : Path) : Entries → List String
  | Entries.nil => []
  | Entries.dict k sub rest =>
      if keyIsMeta k then checkMissing fs cb rest
      else
        (if fsExists fs (cb ++ [k]) then [] else [pathStr (cb ++ [k])]) ++
          checkMissing fs (cb ++ [k]) sub ++ checkMissing fs cb rest
  | Entries.str k _ rest =>
      if keyIsMeta k then checkMissing fs cb rest
      else
        (if fsExists fs (cb ++ [k]) then [] else [pathStr (cb ++ [k])]) ++
          checkMissing fs cb rest
  | Entries.int k _ rest =>
      if keyIsMeta k then checkMissing fs cb rest
      else
        (if fsExists fs (cb ++ [k]) then [] else [pathStr (cb ++ [k])]) ++
          checkMissing fs cb rest
  | Entries.null k rest =>
      if keyIsMeta k then checkMissing fs cb rest
      else
        (if fsExists fs (cb ++ [k]) then [] else [pathStr (cb ++ [k])]) ++
          checkMissing fs cb rest

/-- The message of the missing-paths failure:
`f"Missing {len(missing)} folders: {', '.join(missing[:5])}..."`. -/
def validationMsg (missing : List String) : String :=
  "Missing " ++ toString missing.length ++ " folders: " ++
    String.intercalate ", " (missing.take 5) ++ "..."

/-- `validate_folder_tree(base_path, structure)`: fail fast when the base path
is absent; otherwise collect all missing descendant paths and either fail with
the summarizing message or return `true`. -/
def validate_folder_tree (fs : FS) (base : Path) (st : Entries) :
    Except TreeError Bool :=
  if !(fsExists fs base) then
    Except.error (TreeError.basePathMissingError ("Base path does not exist: " ++ pathStr base))
  else
    let missing := checkMissing fs base st
    if missing.isEmpty then Except.ok true
    else Except.error (TreeError.validationError (validationMsg missing))

/-- Relocate every entry at or below `src` to the corresponding path below
`dst` (the adapter-level `move`); fails when the destination already exists. -/
def moveFS (fs : FS) (src dst : Path) : Option FS :=
  if fsExists fs dst then Option.none
  else
    Option.some (fs.map (fun qe =>
      if src.isPrefixOf qe.fst then (dst ++ qe.fst.drop src.length, qe.snd) else qe))

/-- Modelled from the spec: `migrate(src, dst, dry_run)` is part of this
repository's manager interface (spec §4.4) but has no implementation under
`src/`; this definition follows the spec's words exactly — in dry-run mode log
and return without touching the adapter; fail immediately with
`MigrationError` if `src` does not exist; ensure `dst`'s parent directory
exists (create with parent-creation enabled), then perform a single move from
`src` to `dst`, wrapping any adapter failure as `MigrationError`. -/
def migrate (fs : FS) (src dst : Path) (dry_run : Bool) :
    Except TreeError (FS × List Event) :=
  if dry_run then Except.ok (fs, [])
  else if !(fsExists fs src) then
    Except.error (TreeError.migrationError ("Source does not exist: " ++ pathStr src))
  else
    match mkdirParents fs dst.dropLast with
    | Option.none =>
        Except.error (TreeError.migrationError ("Failed to prepare destination " ++ pathStr dst))
    | Option.some fs1 =>
      match moveFS fs1 src dst with
      | Option.none =>
          Except.error (TreeError.migrationError ("Move failed: " ++ pathStr src))
      | Option.some fs2 =>
          Except.ok (fs2, [Event.mkdir dst.dropLast, Event.move src dst])

/-- Remove metadata keys at every level (specification-side helper used to
state the metadata-exclusion property). -/
def deepFilter : Entries → Entries
  | Entries.nil => Entries.nil
  | Entries.dict k sub rest =>
      if keyIsMeta k then deepFilter rest
      else Entries.dict k (deepFilter sub) (deepFilter rest)
  | Entries.str k s rest =>
      if keyIsMeta k then deepFilter rest else Entries.str k s (deepFilter rest)
  | Entries.int k n rest =>
      if keyIsMeta k then deepFilter rest else Entries.int k n (deepFilter rest)
  | Entries.null k rest =>
      if keyIsMeta k then deepFilter rest else Entries.null k (deepFilter rest)

/-- Specification-side depth-first pre-order list of every non-metadata entry
path (used to state the validation-traversal property). -/
def preorderPaths (cb : Path) : Entries → List Path
  | Entries.nil => []
  | Entries.dict k sub rest =>
      if keyIsMeta k then preorderPaths cb rest
      else (cb ++ [k]) :: (preorderPaths (cb ++ [k]) sub ++ preorderPaths cb rest)
  | Entries.str k _ rest =>
      if keyIsMeta k then preorderPaths cb rest
      else (cb ++ [k]) :: preorderPaths cb rest
  | Entries.int k _ rest =>
      if keyIsMeta k then preorderPaths cb rest
      else (cb ++ [k]) :: preorderPaths cb rest
  | Entries.null k rest =>
      if keyIsMeta k then preorderPaths cb rest
      else (cb ++ [k]) :: preorderPaths cb rest

/-- The pure result tree of `create_folder_tree` for a base path and spec
(the result does not depend on the backend state). -/
def resultOf (base : Path) : Entries → ResultTree
  | Entries.nil => ResultTree.nil
  | Entries.dict k sub rest =>
      if keyIsMeta k then resultOf base rest
      else ResultTree.node k (resultOf (base ++ [k]) sub) (resultOf base rest)
  | Entries.str k _ rest =>
      if keyIsMeta k then resultOf base rest
      else ResultTree.leaf k (base ++ [k]) (resultOf base rest)
  | Entries.int k _ rest =>
      if keyIsMeta k then resultOf base rest
      else ResultTree.leaf k (base ++ [k]) (resultOf base rest)
  | Entries.null k rest =>
      if keyIsMeta k then resultOf base rest
      else ResultTree.leaf k (base ++ [k]) (resultOf base rest)

/-- Lookup of a key in a result tree (first occurrence). -/
def resLookup : ResultTree → String → Option (Sum Path ResultTree)
  | ResultTree.nil, _ => Option.none
  | ResultTree.leaf k p rest, key =>
      if k = key then Option.some (Sum.inl p) else resLookup rest key
  | ResultTree.node k sub rest, key =>
      if k = key then Option.some (Sum.inr sub) else resLookup rest key

/-- Does a result tree cover a spec: every non-metadata key of the spec has an
entry, and dict values are covered recursively by a nested result tree. -/
def coversb (r : ResultTree) : Entries → Bool
  | Entries.nil => true
  | Entries.dict k sub rest =>
      (keyIsMeta k ||
        (match resLookup r k with
         | Option.some (Sum.inr rSub) => coversb rSub sub
         | _ => false)) && coversb r rest
  | Entries.str k _ rest =>
      (keyIsMeta k || (resLookup r k).isSome) && coversb r rest
  | Entries.int k _ rest =>
      (keyIsMeta k || (resLookup r k).isSome) && coversb r rest
  | Entries.null k rest =>
      (keyIsMeta k || (resLookup r k).isSome) && coversb r rest

/-- A key chain that addresses an entry of the spec: nonempty, resolving
through non-metadata keys, passing through dict values only. -/
def validChain : Entries → List String → Bool
  | _, [] => false
  | Entries.nil, _ :: _ => false
  | Entries.dict k sub rest, k0 :: c =>
      if k = k0 then !(keyIsMeta k0) && (c.isEmpty || validChain sub c)
      else validChain rest (k0 :: c)
  | Entries.str k _ rest, k0 :: c =>
      if k = k0 then !(keyIsMeta k0) && c.isEmpty else validChain rest (k0 :: c)
  | Entries.int k _ rest, k0 :: c =>
      if k = k0 then !(keyIsMeta k0) && c.isEmpty else validChain rest (k0 :: c)
  | Entries.null k rest, k0 :: c =>
      if k = k0 then !(keyIsMeta k0) && c.isEmpty else validChain rest (k0 :: c)

/-- Split a character list on slashes (accumulator holds the current segment
reversed). -/
def splitSlashAux : List Char → List Char → List String
  | [], acc => [String.mk acc.reverse]
  | c :: rest, acc =>
      if c = ('/') then String.mk acc.reverse :: splitSlashAux rest []
      else splitSlashAux rest (c :: acc)

/-- The segments a key contributes when joined via `pathlib`: the key is split
on slashes and spurious empty and single-dot segments are collapsed. -/
def keySegs (k : String) : List String :=
  (splitSlashAux k.data []).filter (fun s => !(s == "" || s == "."))

/-- `base / key` with `pathlib`'s join semantics: empty and "." keys collapse
to the base itself, a key beginning with a slash is absolute and replaces the
base entirely, and a key containing slashes contributes several segments.
The rest of the development treats keys as atomic path segments
(`cb ++ [k]`), which coincides with this join exactly for plain names
(`plainKeyb`); `pyJoin` is used where a claim is sensitive to the
difference. -/
def pyJoin (base : Path) (k : String) : Path :=
  match k.data with
  | [] => base
  | c :: _ => if c = ('/') then keySegs k else base ++ keySegs k

/-- A plain file or directory name: nonempty, not "." or "..", and without a
slash.  For such keys `pyJoin base k = base ++ [k]`. -/
def plainKeyb (k : String) : Bool :=
  !(k == "") && !(k == ".") && !(k == "..") && !(k.data.contains ('/'))

/-- Every non-metadata key of the spec, at every level the traversals reach,
is a plain name. -/
def plainKeysb : Entries → Bool
  | Entries.nil => true
  | Entries.dict k sub rest =>
      (keyIsMeta k || (plainKeyb k && plainKeysb sub)) && plainKeysb rest
  | Entries.str k _ rest => (keyIsMeta k || plainKeyb k) && plainKeysb rest
  | Entries.int k _ rest => (keyIsMeta k || plainKeyb k) && plainKeysb rest
  | Entries.null k rest => (keyIsMeta k || plainKeyb k) && plainKeysb rest

/-- `_collect` of `cleanup_folder_tree` with the exact `pathlib` join
(`p = current_base / key`, manager.py line 160): which concrete path a key
yields matters for the claim about what cleanup may remove, so this variant
keeps the join exact rather than treating keys as atomic segments. -/
def collectPathsPy (cb : Path) : Entries → List Path
  | Entries.nil => []
  | Entries.dict k sub rest =>
      if keyIsMeta k then collectPathsPy cb rest
      else pyJoin cb k :: (collectPathsPy (pyJoin cb k) sub ++ collectPathsPy cb rest)
  | Entries.str k _ rest =>
      if keyIsMeta k then collectPathsPy cb rest
      else pyJoin cb k :: collectPathsPy cb rest
  | Entries.int k _ rest =>
      if keyIsMeta k then collectPathsPy cb rest
      else pyJoin cb k :: collectPathsPy cb rest
  | Entries.null k rest =>
      if keyIsMeta k then collectPathsPy cb rest
      else pyJoin cb k :: collectPathsPy cb rest

/-- `cleanup_folder_tree` with the exact `pathlib` join in its collection
phase. -/
def cleanup_folder_tree_py (fs : FS) (base : Path) (st : Entries) (confirm : Bool) :
    FS × List Event :=
  if !confirm then (fs, [])
  else deleteAll fs (sortDesc (collectPathsPy base st))

/-! ### Basic lemmas about the filesystem model -/

theorem fsLookup_fsErase (fs : FS) (p : Path) (x : Path) :
    fsLookup (fsErase fs p) x = if x = p then Option.none else fsLookup fs x := by
  induction fs with
  | nil => simp [fsErase, fsLookup]
  | cons qe rest ih =>
      obtain ⟨q, e1⟩ := qe
      have hrest : fsLookup (fsErase rest p) x =
          if x = p then Option.none else fsLookup rest x := ih
      by_cases hq : q = p
      · have hdrop : fsErase ((q, e1) :: rest) p = fsErase rest p := by
          simp [fsErase, List.filter_cons, hq]
        rw [hdrop, hrest]
        by_cases hx : x = p
        · simp [hx]
        · have hqx : ¬(q = x) := fun h => hx (by rw [← h, hq])
          simp [fsLookup, hx, hqx]
      · have hkeep : fsErase ((q, e1) :: rest) p = (q, e1) :: fsErase rest p := by
          simp [fsErase, List.filter_cons, hq]
        rw [hkeep]
        by_cases hx : x = p
        · subst hx
          simp [fsLookup, hq, hrest]
        · by_cases hqx : q = x
          · simp [fsLookup, hqx, hx]
          · simp [fsLookup, hqx, hrest, hx]

theorem fsLookup_fsSet (fs : FS) (p : Path) (e : Entry) (x : Path) :
    fsLookup (fsSet fs p e) x = if x = p then Option.some e else fsLookup fs x := by
  show fsLookup ((p, e) :: fsErase fs p) x = _
  by_cases hx : x = p
  · simp [fsLookup, hx]
  · have hpx : ¬(p = x) := fun h => hx h.symm
    simp [fsLookup, hpx, fsLookup_fsErase, hx]

theorem fsExists_iff (fs : FS) (p : Path) :
    fsExists fs p = true ↔ ∃ e, fsLookup fs p = Option.some e := by
  cases h : fsLookup fs p <;> simp [fsExists, h]

/-! ### `ensureDir` / `ensureDirs` / `mkdirParents` -/

theorem ensureDir_lookup (fs fs' : FS) (q x : Path)
    (h : ensureDir fs q = Option.some fs') :
    fsLookup fs' x =
      if x = q ∧ fsLookup fs q = Option.none then Option.some Entry.dir
      else fsLookup fs x := by
  unfold ensureDir at h
  cases hq : fsLookup fs q with
  | none =>
      rw [hq] at h
      cases h
      rw [fsLookup_fsSet]
      by_cases hx : x = q <;> simp [hx, hq]
  | some e =>
      cases e with
      | dir =>
          rw [hq] at h
          cases h
          simp [hq]
      | file c => rw [hq] at h; cases h

theorem ensureDir_preserve (fs fs' : FS) (q x : Path) (e : Entry)
    (h : ensureDir fs q = Option.some fs') (hx : fsLookup fs x = Option.some e) :
    fsLookup fs' x = Option.some e := by
  rw [ensureDir_lookup fs fs' q x h]
  by_cases hxq : x = q
  · subst hxq
    simp [hx]
  · simp [hxq, hx]

theorem ensureDir_isDir (fs fs' : FS) (q : Path)
    (h : ensureDir fs q = Option.some fs') :
    fsLookup fs' q = Option.some Entry.dir := by
  rw [ensureDir_lookup fs fs' q q h]
  cases hq : fsLookup fs q with
  | none => simp [hq]
  | some e =>
      unfold ensureDir at h
      rw [hq] at h
      cases e with
      | dir => simp [hq]
      | file c => cases h

theorem ensureDir_noop (fs : FS) (q : Path)
    (h : fsLookup fs q = Option.some Entry.dir) : ensureDir fs q = Option.some fs := by
  unfold ensureDir
  rw [h]

theorem ensureDirs_preserve (l : List Path) (fs fs' : FS) (x : Path) (e : Entry)
    (h : ensureDirs fs l = Option.some fs') (hx : fsLookup fs x = Option.some e) :
    fsLookup fs' x = Option.some e := by
  induction l generalizing fs with
  | nil => unfold ensureDirs at h; cases h; exact hx
  | cons q rest ih =>
      unfold ensureDirs at h
      cases hq : ensureDir fs q with
      | none => rw [hq] at h; cases h
      | some fs1 =>
          rw [hq] at h
          exact ih fs1 h (ensureDir_preserve fs fs1 q x e hq hx)

theorem ensureDirs_changed (l : List Path) (fs fs' : FS) (x : Path)
    (h : ensureDirs fs l = Option.some fs')
    (hne : fsLookup fs' x ≠ fsLookup fs x) :
    x ∈ l ∧ fsLookup fs x = Option.none ∧ fsLookup fs' x = Option.some Entry.dir := by
  induction l generalizing fs with
  | nil => unfold ensureDirs at h; cases h; exact absurd rfl hne
  | cons q rest ih =>
      unfold ensureDirs at h
      cases hq : ensureDir fs q with
      | none => rw [hq] at h; cases h
      | some fs1 =>
          rw [hq] at h
          by_cases hstep : fsLookup fs1 x = fsLookup fs x
          · have hne1 : fsLookup fs' x ≠ fsLookup fs1 x := by
              rw [hstep]; exact hne
            obtain ⟨hmem, hnone, hdir⟩ := ih fs1 h hne1
            exact ⟨List.mem_cons_of_mem _ hmem, hstep ▸ hnone, hdir⟩
          · have hl := ensureDir_lookup fs fs1 q x hq
            by_cases hcond : x = q ∧ fsLookup fs q = Option.none
            · obtain ⟨hxq, hnone⟩ := hcond
              subst hxq
              rw [if_pos ⟨rfl, hnone⟩] at hl
              refine ⟨List.mem_cons_self _ _, hnone, ?_⟩
              exact ensureDirs_preserve rest fs1 fs' x Entry.dir h hl
            · rw [if_neg hcond] at hl
              exact absurd hl hstep

theorem ensureDirs_unchanged (l : List Path) (fs fs' : FS) (x : Path)
    (h : ensureDirs fs l = Option.some fs') (hx : x ∉ l) :
    fsLookup fs' x = fsLookup fs x := by
  by_cases hne : fsLookup fs' x = fsLookup fs x
  · exact hne
  · exact absurd (ensureDirs_changed l fs fs' x h hne).1 hx

theorem ensureDirs_mono (l : List Path) (fs fs' : FS) (x : Path)
    (h : ensureDirs fs l = Option.some fs')
    (hx : fsExists fs x = true) : fsExists fs' x = true := by
  rw [fsExists_iff] at hx ⊢
  obtain ⟨e, he⟩ := hx
  exact ⟨e, ensureDirs_preserve l fs fs' x e h he⟩

theorem ensureDirs_dirs (l : List Path) (fs fs' : FS)
    (h : ensureDirs fs l = Option.some fs') :
    ∀ q ∈ l, fsLookup fs' q = Option.some Entry.dir := by
  induction l generalizing fs with
  | nil => intro q hq; cases hq
  | cons a rest ih =>
      unfold ensureDirs at h
      cases ha : ensureDir fs a with
      | none => rw [ha] at h; cases h
      | some fs1 =>
          rw [ha] at h
          intro q hq
          rcases List.mem_cons.mp hq with hqa | hqr
          · subst hqa
            exact ensureDirs_preserve rest fs1 fs' q Entry.dir h (ensureDir_isDir fs fs1 q ha)
          · exact ih fs1 h q hqr

theorem ensureDirs_noop (l : List Path) (fs : FS)
    (h : ∀ q ∈ l, fsLookup fs q = Option.some Entry.dir) :
    ensureDirs fs l = Option.some fs := by
  induction l with
  | nil => rfl
  | cons a rest ih =>
      unfold ensureDirs
      rw [ensureDir_noop fs a (h a (List.mem_cons_self _ _))]
      exact ih (fun q hq => h q (List.mem_cons_of_mem _ hq))

theorem mem_pathPrefixes (p q : Path) :
    q ∈ pathPrefixes p ↔ q ≠ [] ∧ q <+: p := by
  induction p generalizing q with
  | nil => simp [pathPrefixes]
  | cons a rest ih =>
      simp only [pathPrefixes, List.mem_cons, List.mem_map]
      constructor
      · rintro (rfl | ⟨q1, hq1, rfl⟩)
        · exact ⟨by simp, ⟨rest, rfl⟩⟩
        · obtain ⟨hne, hpre⟩ := (ih q1).mp hq1
          exact ⟨by simp, by
            obtain ⟨t, rfl⟩ := hpre
            exact ⟨t, rfl⟩⟩
      · rintro ⟨hne, hpre⟩
        cases q with
        | nil => exact absurd rfl hne
        | cons b q1 =>
            obtain ⟨t, ht⟩ := hpre
            have hb : b = a := by
              have := congrArg (List.head?) ht
              simpa using this
            subst hb
            cases q1 with
            | nil => exact Or.inl rfl
            | cons c q2 =>
                refine Or.inr ⟨c :: q2, (ih (c :: q2)).mpr ⟨by simp, ⟨t, ?_⟩⟩, rfl⟩
                have := congrArg (List.tail) ht
                simpa using this

theorem pathPrefixes_length_le (p q : Path) (h : q ∈ pathPrefixes p) :
    q.length ≤ p.length := by
  obtain ⟨-, hpre⟩ := (mem_pathPrefixes p q).mp h
  exact hpre.length_le

theorem mkdirParents_preserve (fs fs' : FS) (p x : Path) (e : Entry)
    (h : mkdirParents fs p = Option.some fs') (hx : fsLookup fs x = Option.some e) :
    fsLookup fs' x = Option.some e :=
  ensureDirs_preserve _ fs fs' x e h hx

theorem mkdirParents_mono (fs fs' : FS) (p x : Path)
    (h : mkdirParents fs p = Option.some fs') (hx : fsExists fs x = true) :
    fsExists fs' x = true :=
  ensureDirs_mono _ fs fs' x h hx

theorem mkdirParents_changed (fs fs' : FS) (p x : Path)
    (h : mkdirParents fs p = Option.some fs')
    (hne : fsLookup fs' x ≠ fsLookup fs x) :
    (x ≠ [] ∧ x <+: p) ∧ fsLookup fs x = Option.none ∧
      fsLookup fs' x = Option.some Entry.dir := by
  obtain ⟨hmem, h2, h3⟩ := ensureDirs_changed _ fs fs' x h hne
  exact ⟨(mem_pathPrefixes p x).mp hmem, h2, h3⟩

theorem mkdirParents_unchanged (fs fs' : FS) (p x : Path)
    (h : mkdirParents fs p = Option.some fs') (hx : ¬(x ≠ [] ∧ x <+: p)) :
    fsLookup fs' x = fsLookup fs x :=
  ensureDirs_unchanged _ fs fs' x h (fun hmem => hx ((mem_pathPrefixes p x).mp hmem))

theorem mkdirParents_dirs (fs fs' : FS) (p : Path)
    (h : mkdirParents fs p = Option.some fs') :
    ∀ q, q ≠ [] → q <+: p → fsLookup fs' q = Option.some Entry.dir := by
  intro q h1 h2
  exact ensureDirs_dirs _ fs fs' h q ((mem_pathPrefixes p q).mpr ⟨h1, h2⟩)

theorem mkdirParents_noop (fs : FS) (p : Path)
    (h : ∀ q, q ≠ [] → q <+: p → fsLookup fs q = Option.some Entry.dir) :
    mkdirParents fs p = Option.some fs :=
  ensureDirs_noop _ fs (fun q hq => by
    obtain ⟨h1, h2⟩ := (mem_pathPrefixes p q).mp hq
    exact h q h1 h2)

theorem writeFileFS_lookup (fs fs' : FS) (p : Path) (c : String) (x : Path)
    (h : writeFileFS fs p c = Option.some fs') :
    fsLookup fs' x = if x = p then Option.some (Entry.file c) else fsLookup fs x := by
  unfold writeFileFS at h
  cases hp : fsLookup fs p with
  | some e =>
      cases e with
      | dir => rw [hp] at h; cases h
      | file c0 =>
          rw [hp] at h
          by_cases hpar : p.dropLast.isEmpty
          · rw [if_pos hpar] at h
            cases h
            exact fsLookup_fsSet fs p (Entry.file c) x
          · rw [if_neg hpar] at h
            cases hpl : fsLookup fs p.dropLast with
            | none => rw [hpl] at h; cases h
            | some e1 =>
                cases e1 with
                | dir =>
                    rw [hpl] at h; cases h
                    exact fsLookup_fsSet fs p (Entry.file c) x
                | file c1 => rw [hpl] at h; cases h
  | none =>
      rw [hp] at h
      by_cases hpar : p.dropLast.isEmpty
      · rw [if_pos hpar] at h
        cases h
        exact fsLookup_fsSet fs p (Entry.file c) x
      · rw [if_neg hpar] at h
        cases hpl : fsLookup fs p.dropLast with
        | none => rw [hpl] at h; cases h
        | some e1 =>
            cases e1 with
            | dir =>
                rw [hpl] at h; cases h
                exact fsLookup_fsSet fs p (Entry.file c) x
            | file c1 => rw [hpl] at h; cases h

/-! ### Path string lengths and the descending sort -/

theorem strLen_cons_cons (a b : String) (r : List String) :
    strLen (a :: b :: r) = a.length + 1 + strLen (b :: r) := by
  show (a ++ "/" ++ pathStr (b :: r)).length = _
  rw [String.length_append, String.length_append]
  have h1 : "/".length = 1 := rfl
  rw [h1]
  rfl

theorem strLen_append (p c : Path) (hp : p ≠ []) (hc : c ≠ []) :
    strLen (p ++ c) = strLen p + 1 + strLen c := by
  induction p with
  | nil => exact absurd rfl hp
  | cons a p' ih =>
      cases p' with
      | nil =>
          cases c with
          | nil => exact absurd rfl hc
          | cons b c' =>
              show strLen (a :: b :: c') = strLen [a] + 1 + strLen (b :: c')
              rw [strLen_cons_cons]
              rfl
      | cons a2 p'' =>
          have ih' := ih (by simp)
          rw [List.cons_append] at ih'
          show strLen (a :: a2 :: (p'' ++ c)) = _
          rw [strLen_cons_cons, ih', strLen_cons_cons]
          omega

theorem strLen_lt_append (p c : Path) (hp : p ≠ []) (hc : c ≠ []) :
    strLen p < strLen (p ++ c) := by
  rw [strLen_append p c hp hc]
  omega

theorem mem_insertDesc (p x : Path) (l : List Path) :
    x ∈ insertDesc p l ↔ x = p ∨ x ∈ l := by
  induction l with
  | nil => simp [insertDesc]
  | cons q rest ih =>
      by_cases h : strLen q ≤ strLen p
      · simp [insertDesc, h]
      · simp [insertDesc, h, ih]
        tauto

theorem mem_sortDesc (x : Path) (l : List Path) : x ∈ sortDesc l ↔ x ∈ l := by
  induction l with
  | nil => simp [sortDesc]
  | cons q rest ih => simp [sortDesc, mem_insertDesc, ih]

theorem pairwise_insertDesc (p : Path) (l : List Path)
    (h : List.Pairwise (fun a b => strLen b ≤ strLen a) l) :
    List.Pairwise (fun a b => strLen b ≤ strLen a) (insertDesc p l) := by
  induction l with
  | nil => simp [insertDesc]
  | cons q rest ih =>
      rcases List.pairwise_cons.mp h with ⟨hq, hrest⟩
      simp only [insertDesc]
      by_cases hle : strLen q ≤ strLen p
      · rw [if_pos hle]
        refine List.pairwise_cons.mpr ⟨?_, h⟩
        intro b hb
        rcases List.mem_cons.mp hb with rfl | hbr
        · exact hle
        · exact le_trans (hq b hbr) hle
      · rw [if_neg hle]
        refine List.pairwise_cons.mpr ⟨?_, ih hrest⟩
        intro b hb
        rcases (mem_insertDesc p b rest).mp hb with rfl | hbr
        · omega
        · exact hq b hbr

theorem pairwise_sortDesc (l : List Path) :
    List.Pairwise (fun a b => strLen b ≤ strLen a) (sortDesc l) := by
  induction l with
  | nil => simp [sortDesc]
  | cons q rest ih => exact pairwise_insertDesc q (sortDesc rest) ih

/-! ### The deletion loop -/

theorem deleteStep_lookup_other (fs : FS) (p x : Path) (hx : x ≠ p) :
    fsLookup (deleteStep fs p).fst x = fsLookup fs x := by
  unfold deleteStep
  by_cases he : fsExists fs p
  · rw [if_pos he]
    cases hl : fsLookup fs p with
    | none => rfl
    | some e =>
        cases e with
        | file c => simp [fsLookup_fsErase, hx]
        | dir =>
            by_cases hc : dirHasChildren fs p
            · simp [hc]
            · simp [hc, fsLookup_fsErase, hx]
  · rw [if_neg he]

theorem deleteStep_dom (fs : FS) (p x : Path)
    (hx : fsExists (deleteStep fs p).fst x = true) : fsExists fs x = true := by
  by_cases hxp : x = p
  · subst hxp
    unfold deleteStep at hx
    by_cases he : fsExists fs x
    · exact he
    · rw [if_neg he] at hx
      exact hx
  · rw [fsExists_iff] at hx ⊢
    rw [deleteStep_lookup_other fs p x hxp] at hx
    exact hx

theorem deleteStep_events (fs : FS) (p : Path) :
    ∀ e ∈ (deleteStep fs p).snd, e = Event.removeFile p ∨ e = Event.removeDir p := by
  unfold deleteStep
  by_cases he : fsExists fs p
  · rw [if_pos he]
    cases hl : fsLookup fs p with
    | none => intro e hmem; cases hmem
    | some e0 =>
        cases e0 with
        | file c => intro e hmem; simp at hmem; exact Or.inl hmem
        | dir =>
            by_cases hc : dirHasChildren fs p <;>
              · simp [hc]
  · rw [if_neg he]
    intro e hmem
    cases hmem

theorem deleteAll_lookup_not_mem (l : List Path) (fs : FS) (x : Path) (hx : x ∉ l) :
    fsLookup (deleteAll fs l).fst x = fsLookup fs x := by
  induction l generalizing fs with
  | nil => rfl
  | cons p rest ih =>
      have hxp : x ≠ p := fun h => hx (h ▸ List.mem_cons_self _ _)
      have hxr : x ∉ rest := fun h => hx (List.mem_cons_of_mem _ h)
      show fsLookup (deleteAll (deleteStep fs p).fst rest).fst x = _
      rw [ih (deleteStep fs p).fst hxr, deleteStep_lookup_other fs p x hxp]

theorem deleteAll_events (l : List Path) (fs : FS) :
    ∀ e ∈ (deleteAll fs l).snd, ∃ p, (e = Event.removeFile p ∨ e = Event.removeDir p) ∧ p ∈ l := by
  induction l generalizing fs with
  | nil => intro e hmem; cases hmem
  | cons p rest ih =>
      intro e hmem
      have : e ∈ (deleteStep fs p).snd ∨ e ∈ (deleteAll (deleteStep fs p).fst rest).snd := by
        simpa [deleteAll] using List.mem_append.mp (by simpa [deleteAll] using hmem)
      rcases this with h1 | h2
      · exact ⟨p, deleteStep_events fs p e h1, List.mem_cons_self _ _⟩
      · obtain ⟨q, hq1, hq2⟩ := ih (deleteStep fs p).fst e h2
        exact ⟨q, hq1, List.mem_cons_of_mem _ hq2⟩

theorem collectPaths_extends (st : Entries) (cb : Path) :
    ∀ p ∈ collectPaths cb st, ∃ c, c ≠ [] ∧ p = cb ++ c := by
  induction st generalizing cb with
  | nil => intro p hp; cases hp
  | dict k sub rest ihsub ihrest =>
      intro p hp
      by_cases hk : keyIsMeta k
      · exact ihrest cb p (by simpa [collectPaths, hk] using hp)
      · simp only [collectPaths, hk, if_false, Bool.false_eq_true, List.mem_cons,
          List.mem_append] at hp
        rcases hp with rfl | hsub | hrest
        · exact ⟨[k], by simp, rfl⟩
        · obtain ⟨c, hc, rfl⟩ := ihsub (cb ++ [k]) p hsub
          exact ⟨k :: c, by simp, by simp⟩
        · exact ihrest cb p hrest
  | str k s rest ihrest =>
      intro p hp
      by_cases hk : keyIsMeta k
      · exact ihrest cb p (by simpa [collectPaths, hk] using hp)
      · simp only [collectPaths, hk, if_false, Bool.false_eq_true, List.mem_cons] at hp
        rcases hp with rfl | hrest
        · exact ⟨[k], by simp, rfl⟩
        · exact ihrest cb p hrest
  | int k n rest ihrest =>
      intro p hp
      by_cases hk : keyIsMeta k
      · exact ihrest cb p (by simpa [collectPaths, hk] using hp)
      · simp only [collectPaths, hk, if_false, Bool.false_eq_true, List.mem_cons] at hp
        rcases hp with rfl | hrest
        · exact ⟨[k], by simp, rfl⟩
        · exact ihrest cb p hrest
  | null k rest ihrest =>
      intro p hp
      by_cases hk : keyIsMeta k
      · exact ihrest cb p (by simpa [collectPaths, hk] using hp)
      · simp only [collectPaths, hk, if_false, Bool.false_eq_true, List.mem_cons] at hp
        rcases hp with rfl | hrest
        · exact ⟨[k], by simp, rfl⟩
        · exact ihrest cb p hrest

/-! ### Validation refinement -/

theorem checkMissing_eq_preorder (st : Entries) (fs : FS) (cb : Path) :
    checkMissing fs cb st =
      ((preorderPaths cb st).filter (fun p => !(fsExists fs p))).map pathStr := by
  induction st generalizing cb with
  | nil => rfl
  | dict k sub rest ihsub ihrest =>
      by_cases hk : keyIsMeta k
      · simp [checkMissing, preorderPaths, hk, ihrest cb]
      · by_cases he : fsExists fs (cb ++ [k]) <;>
          simp [checkMissing, preorderPaths, hk, he, ihsub (cb ++ [k]), ihrest cb,
            List.filter_append, List.filter_cons]
  | str k s rest ihrest =>
      by_cases hk : keyIsMeta k
      · simp [checkMissing, preorderPaths, hk, ihrest cb]
      · by_cases he : fsExists fs (cb ++ [k]) <;>
          simp [checkMissing, preorderPaths, hk, he, ihrest cb, List.filter_cons]
  | int k n rest ihrest =>
      by_cases hk : keyIsMeta k
      · simp [checkMissing, preorderPaths, hk, ihrest cb]
      · by_cases he : fsExists fs (cb ++ [k]) <;>
          simp [checkMissing, preorderPaths, hk, he, ihrest cb, List.filter_cons]
  | null k rest ihrest =>
      by_cases hk : keyIsMeta k
      · simp [checkMissing, preorderPaths, hk, ihrest cb]
      · by_cases he : fsExists fs (cb ++ [k]) <;>
          simp [checkMissing, preorderPaths, hk, he, ihrest cb, List.filter_cons]

/-! ### Claim theorems: validate -/

/-- Claim C2: `validate` returns `true` when every non-metadata entry of the
spec exists; it fails with `BasePathMissingError` when the resolved base path
does not exist, and with `ValidationError` when the base exists but some
descendant entry is missing. -/
theorem C2_validate_contract (fs : FS) (base : Path) (st : Entries) :
    (fsExists fs base = false →
      ∃ m, validate_folder_tree fs base st =
        Except.error (TreeError.basePathMissingError m)) ∧
    (fsExists fs base = true →
      (∀ p ∈ preorderPaths base st, fsExists fs p = true) →
      validate_folder_tree fs base st = Except.ok true) ∧
    (fsExists fs base = true →
      ∀ p ∈ preorderPaths base st, fsExists fs p = false →
      ∃ m, validate_folder_tree fs base st =
        Except.error (TreeError.validationError m)) := by
  refine ⟨?_, ?_, ?_⟩
  · intro hb
    exact ⟨"Base path does not exist: " ++ pathStr base, by simp [validate_folder_tree, hb]⟩
  · intro hb hall
    have hfilter : (preorderPaths base st).filter (fun p => !(fsExists fs p)) = [] := by
      rw [List.filter_eq_nil_iff]
      intro p hp
      simp [hall p hp]
    have hmiss : checkMissing fs base st = [] := by
      rw [checkMissing_eq_preorder, hfilter]
      rfl
    simp [validate_folder_tree, hb, hmiss]
  · intro hb p hp hpe
    have hpf : p ∈ (preorderPaths base st).filter (fun p => !(fsExists fs p)) :=
      List.mem_filter.mpr ⟨hp, by simp [hpe]⟩
    have hmiss : checkMissing fs base st ≠ [] := by
      rw [checkMissing_eq_preorder]
      intro hnil
      rw [List.map_eq_nil_iff] at hnil
      rw [hnil] at hpf
      cases hpf
    refine ⟨validationMsg (checkMissing fs base st), ?_⟩
    have hne : (checkMissing fs base st).isEmpty = false := by
      cases hm : checkMissing fs base st with
      | nil => exact absurd hm hmiss
      | cons a l => rfl
    simp [validate_folder_tree, hb, hne]

theorem C2_validate_contract_witness :
    (fsExists ([] : FS) ["x"] = false ∧
      ∃ m, validate_folder_tree [] ["x"] Entries.nil =
        Except.error (TreeError.basePathMissingError m)) ∧
    (fsExists [(["x"], Entry.dir)] ["x"] = true ∧
      validate_folder_tree [(["x"], Entry.dir)] ["x"]
        (Entries.null "a" Entries.nil) ≠ Except.ok true) ∧
    validate_folder_tree [(["x"], Entry.dir), (["x", "a"], Entry.file "")] ["x"]
      (Entries.null "a" Entries.nil) = Except.ok true := by
  refine ⟨⟨by decide, (C2_validate_contract [] ["x"] Entries.nil).1 (by decide)⟩, ⟨by decide, ?_⟩, ?_⟩
  · obtain ⟨m, hm⟩ := (C2_validate_contract [(["x"], Entry.dir)] ["x"]
      (Entries.null "a" Entries.nil)).2.2 (by decide) ["x", "a"] (by decide) (by decide)
    intro hcontra
    rw [hm] at hcontra
    cases hcontra
  · exact (C2_validate_contract _ _ _).2.1 (by decide) (by decide)

/-- Claim C3: for a spec whose base path exists, `validate` walks every
non-metadata key depth-first pre-order without short-circuiting — the missing
list it reports is exactly the pre-order list of entry paths filtered by
non-existence — and on failure the error message carries the total count of
missing paths and at most the first five of them followed by an ellipsis
marker. -/
theorem C3_validate_traversal (fs : FS) (base : Path) (st : Entries)
    (hb : fsExists fs base = true)
    (hmiss : (preorderPaths base st).filter (fun p => !(fsExists fs p)) ≠ []) :
    checkMissing fs base st =
      ((preorderPaths base st).filter (fun p => !(fsExists fs p))).map pathStr ∧
    validate_folder_tree fs base st =
      Except.error (TreeError.validationError
        ("Missing " ++
          toString (((preorderPaths base st).filter
            (fun p => !(fsExists fs p))).map pathStr).length ++
          " folders: " ++
          String.intercalate ", " ((((preorderPaths base st).filter
            (fun p => !(fsExists fs p))).map pathStr).take 5) ++ "...")) := by
  have heq := checkMissing_eq_preorder st fs base
  refine ⟨heq, ?_⟩
  have hne : (checkMissing fs base st).isEmpty = false := by
    rw [heq]
    cases hm : (preorderPaths base st).filter (fun p => !(fsExists fs p)) with
    | nil => exact absurd hm hmiss
    | cons a l => rfl
  rw [heq] at hne
  simp [validate_folder_tree, hb, heq, hne, validationMsg]

theorem C3_validate_traversal_witness :
    fsExists [(["x"], Entry.dir)] ["x"] = true ∧
    (preorderPaths ["x"] (Entries.null "a" (Entries.null "b" Entries.nil))).filter
      (fun p => !(fsExists [(["x"], Entry.dir)] p)) ≠ [] ∧
    validate_folder_tree [(["x"], Entry.dir)] ["x"]
        (Entries.null "a" (Entries.null "b" Entries.nil)) =
      Except.error (TreeError.validationError "Missing 2 folders: x/a, x/b...") := by
  refine ⟨by decide, by decide, ?_⟩
  have h := (C3_validate_traversal [(["x"], Entry.dir)] ["x"]
    (Entries.null "a" (Entries.null "b" Entries.nil)) (by decide) (by decide)).2
  rw [h]
  rfl

/-! ### Claim theorems: cleanup safety gate and frame -/

/-- Claim C4: `cleanup` without `confirm` performs zero backend mutation
calls: the state is unchanged and the event trace is empty. -/
theorem C4_cleanup_noop (fs : FS) (base : Path) (st : Entries) :
    cleanup_folder_tree fs base st false = (fs, []) := rfl

/-! ### Claim theorems: migrate (modelled from the spec) -/

/-- Claim C1: `migrate(src, dst, dry_run)` (modelled from the spec, which
describes it while no implementation exists under `src/`): in dry-run mode it
returns without performing any mutation; otherwise it fails — always with a
`MigrationError` — whenever the source does not exist or the underlying move
fails. -/
theorem C1_migrate_contract (fs : FS) (src dst : Path) :
    migrate fs src dst true = Except.ok (fs, []) ∧
    (fsExists fs src = false →
      ∃ m, migrate fs src dst false = Except.error (TreeError.migrationError m)) ∧
    (∀ e, migrate fs src dst false = Except.error e →
      ∃ m, e = TreeError.migrationError m) ∧
    (∀ fs1, fsExists fs src = true →
      mkdirParents fs dst.dropLast = Option.some fs1 →
      moveFS fs1 src dst = Option.none →
      ∃ m, migrate fs src dst false = Except.error (TreeError.migrationError m)) := by
  refine ⟨rfl, ?_, ?_, ?_⟩
  · intro hsrc
    exact ⟨"Source does not exist: " ++ pathStr src, by simp [migrate, hsrc]⟩
  · intro e he
    by_cases hsrc : fsExists fs src = true
    · cases hmk : mkdirParents fs dst.dropLast with
      | none =>
          have hcalc : migrate fs src dst false =
              Except.error (TreeError.migrationError
                ("Failed to prepare destination " ++ pathStr dst)) := by
            simp [migrate, hsrc, hmk]
          rw [hcalc] at he
          injection he with h
          exact ⟨_, h.symm⟩
      | some fs1 =>
          cases hmv : moveFS fs1 src dst with
          | none =>
              have hcalc : migrate fs src dst false =
                  Except.error (TreeError.migrationError ("Move failed: " ++ pathStr src)) := by
                simp [migrate, hsrc, hmk, hmv]
              rw [hcalc] at he
              injection he with h
              exact ⟨_, h.symm⟩
          | some fs2 =>
              have hcalc : migrate fs src dst false =
                  Except.ok (fs2, [Event.mkdir dst.dropLast, Event.move src dst]) := by
                simp [migrate, hsrc, hmk, hmv]
              rw [hcalc] at he
              cases he
    · have hsrc' : fsExists fs src = false := by
        cases h : fsExists fs src
        · rfl
        · exact absurd h hsrc
      have hcalc : migrate fs src dst false =
          Except.error (TreeError.migrationError ("Source does not exist: " ++ pathStr src)) := by
        simp [migrate, hsrc']
      rw [hcalc] at he
      injection he with h
      exact ⟨_, h.symm⟩
  · intro fs1 hsrc hmk hmv
    exact ⟨"Move failed: " ++ pathStr src, by simp [migrate, hsrc, hmk, hmv]⟩

theorem C1_migrate_contract_witness :
    migrate [(["a"], Entry.dir)] ["a"] ["b", "c"] true =
      Except.ok ([(["a"], Entry.dir)], []) ∧
    (∃ m, migrate [] ["a"] ["b", "c"] false =
      Except.error (TreeError.migrationError m)) ∧
    (∃ m, migrate [(["a"], Entry.dir), (["b"], Entry.dir), (["b", "c"], Entry.dir)]
      ["a"] ["b", "c"] false = Except.error (TreeError.migrationError m)) := by
  refine ⟨(C1_migrate_contract [(["a"], Entry.dir)] ["a"] ["b", "c"]).1,
    (C1_migrate_contract [] ["a"] ["b", "c"]).2.1 (by decide), ?_⟩
  exact (C1_migrate_contract [(["a"], Entry.dir), (["b"], Entry.dir), (["b", "c"], Entry.dir)]
    ["a"] ["b", "c"]).2.2.2 [(["a"], Entry.dir), (["b"], Entry.dir), (["b", "c"], Entry.dir)]
    (by decide) (by decide) (by decide)

/-! ### Create: step characterizations -/

/-- Is a value a nested dict (`isinstance(value, dict)`)? -/
def isDict : Val → Bool
  | Val.dict _ => true
  | _ => false

/-- All non-metadata entries of a spec are materialized: dict entries are
directories (recursively), scalar entries exist. -/
def treeOKb (fs : FS) (base : Path) : Entries → Bool
  | Entries.nil => true
  | Entries.dict k sub rest =>
      (keyIsMeta k ||
        ((fsLookup fs (base ++ [k]) == Option.some Entry.dir) &&
          treeOKb fs (base ++ [k]) sub)) && treeOKb fs base rest
  | Entries.str k _ rest =>
      (keyIsMeta k || fsExists fs (base ++ [k])) && treeOKb fs base rest
  | Entries.int k _ rest =>
      (keyIsMeta k || fsExists fs (base ++ [k])) && treeOKb fs base rest
  | Entries.null k rest =>
      (keyIsMeta k || fsExists fs (base ++ [k])) && treeOKb fs base rest

/-- The loop body of `create_folder_tree` for a scalar (file) entry, shared by
the three scalar value shapes; `content` is the content that would be written. -/
def scalarBranch (fs : FS) (base : Path) (k : String) (content : String)
    (rest : Entries) (overwrite dry_run : Bool) :
    Except TreeError (ResultTree × FS × List Event) :=
  if keyIsMeta k then createLoop fs base rest overwrite dry_run
  else
    if dry_run then
      match createLoop fs base rest overwrite dry_run with
      | Except.error e => Except.error e
      | Except.ok (rRest, fs1, ev1) =>
          Except.ok (ResultTree.leaf k (base ++ [k]) rRest, fs1, ev1)
    else
      match createFileStep fs (base ++ [k]) content overwrite with
      | Except.error e => Except.error e
      | Except.ok (fsA, evA) =>
        match createLoop fsA base rest overwrite dry_run with
        | Except.error e => Except.error e
        | Except.ok (rRest, fsC, evC) =>
            Except.ok (ResultTree.leaf k (base ++ [k]) rRest, fsC, evA ++ evC)

theorem createLoop_str_eq (fs : FS) (base : Path) (k s : String) (rest : Entries)
    (ow dr : Bool) :
    createLoop fs base (Entries.str k s rest) ow dr =
      scalarBranch fs base k (contentOfStr s) rest ow dr := rfl

theorem createLoop_int_eq (fs : FS) (base : Path) (k : String) (n : Int) (rest : Entries)
    (ow dr : Bool) :
    createLoop fs base (Entries.int k n rest) ow dr =
      scalarBranch fs base k "" rest ow dr := rfl

theorem createLoop_null_eq (fs : FS) (base : Path) (k : String) (rest : Entries)
    (ow dr : Bool) :
    createLoop fs base (Entries.null k rest) ow dr =
      scalarBranch fs base k "" rest ow dr := rfl

theorem createDirStep_ok (fs fsA : FS) (current : Path) (sub : Entries) (ev : List Event)
    (h : createDirStep fs current sub = Except.ok (fsA, ev)) :
    mkdirParents fs current = Option.some fsA ∧
      (ev = [Event.mkdir current] ∨
        ∃ m, ev = [Event.mkdir current, Event.chmod current m]) := by
  unfold createDirStep at h
  cases hmk : mkdirParents fs current with
  | none => rw [hmk] at h; cases h
  | some fs1 =>
      rw [hmk] at h
      cases hp : permsOf sub with
      | none => rw [hp] at h; cases h; exact ⟨rfl, Or.inl rfl⟩
      | some m => rw [hp] at h; cases h; exact ⟨rfl, Or.inr ⟨m, rfl⟩⟩

theorem createFileStep_ok (fs fsA : FS) (current : Path) (content : String)
    (ow : Bool) (ev : List Event)
    (h : createFileStep fs current content ow = Except.ok (fsA, ev)) :
    ∃ fs1, mkdirParents fs current.dropLast = Option.some fs1 ∧
      ((ev = [Event.mkdir current.dropLast, Event.write current content] ∧
          writeFileFS fs1 current content = Option.some fsA ∧
          (!(fsExists fs1 current) || ow) = true) ∨
       (ev = [Event.mkdir current.dropLast] ∧ fsA = fs1 ∧
          fsExists fs1 current = true ∧ ow = false)) := by
  unfold createFileStep at h
  split at h
  · cases h
  next fs1 hmk =>
    refine ⟨fs1, hmk, ?_⟩
    split at h
    next hc =>
      split at h
      · cases h
      next fsB hw =>
        cases h
        exact Or.inl ⟨rfl, hw, hc⟩
    next hc =>
      cases h
      refine Or.inr ⟨rfl, rfl, ?_, ?_⟩
      · cases he : fsExists fsA current
        · exact absurd (by simp [he]) hc
        · rfl
      · cases ho : ow
        · rfl
        · exact absurd (by simp [ho]) hc

theorem writeFileFS_not_dir (fs fs' : FS) (p : Path) (c : String)
    (h : writeFileFS fs p c = Option.some fs') :
    fsLookup fs p ≠ Option.some Entry.dir := by
  intro hdir
  unfold writeFileFS at h
  rw [hdir] at h
  cases h

/-- One induction for all step-composable state relations of the creation
loop: any reflexive, transitive relation that holds across `createDirStep`,
`createFileStep` (at the loop's overwrite flag) and `mkdirParents` holds from
the initial to the final state of a successful non-dry `createLoop`. -/
theorem createLoop_rel (R : FS → FS → Prop) (ow : Bool)
    (hrefl : ∀ fs, R fs fs)
    (htrans : ∀ a b c, R a b → R b c → R a c)
    (hdir : ∀ fs fs' current sub ev,
      createDirStep fs current sub = Except.ok (fs', ev) → R fs fs')
    (hmk : ∀ fs fs' p, mkdirParents fs p = Option.some fs' → R fs fs')
    (hfile : ∀ fs fs' current content ev,
      createFileStep fs current content ow = Except.ok (fs', ev) → R fs fs') :
    ∀ st fs base r fs' ev,
      createLoop fs base st ow false = Except.ok (r, fs', ev) → R fs fs' := by
  intro st
  induction st with
  | nil =>
      intro fs base r fs' ev h
      cases h
      exact hrefl fs
  | dict k sub rest ihsub ihrest =>
      intro fs base r fs' ev h
      by_cases hk : keyIsMeta k
      · exact ihrest fs base r fs' ev (by simpa [createLoop, hk] using h)
      · simp only [createLoop, hk, Bool.false_eq_true, if_false] at h
        split at h
        · cases h
        next fsA evA hstep =>
          split at h
          · cases h
          next fsB hmk2 =>
            split at h
            · cases h
            next rSub fsC evB hsub =>
              split at h
              · cases h
              next rRest fsD evC hrest =>
                cases h
                exact htrans _ _ _ (hdir _ _ _ _ _ hstep)
                  (htrans _ _ _ (hmk _ _ _ hmk2)
                    (htrans _ _ _ (ihsub _ _ _ _ _ hsub)
                      (ihrest _ _ _ _ _ hrest)))
  | str k s rest ihrest =>
      intro fs base r fs' ev h
      rw [createLoop_str_eq] at h
      by_cases hk : keyIsMeta k
      · exact ihrest fs base r fs' ev (by simpa [scalarBranch, hk] using h)
      · simp only [scalarBranch, hk, Bool.false_eq_true, if_false] at h
        split at h
        · cases h
        next fsA evA hstep =>
          split at h
          · cases h
          next rRest fsC evC hrest =>
            cases h
            exact htrans _ _ _ (hfile _ _ _ _ _ hstep) (ihrest _ _ _ _ _ hrest)
  | int k n rest ihrest =>
      intro fs base r fs' ev h
      rw [createLoop_int_eq] at h
      by_cases hk : keyIsMeta k
      · exact ihrest fs base r fs' ev (by simpa [scalarBranch, hk] using h)
      · simp only [scalarBranch, hk, Bool.false_eq_true, if_false] at h
        split at h
        · cases h
        next fsA evA hstep =>
          split at h
          · cases h
          next rRest fsC evC hrest =>
            cases h
            exact htrans _ _ _ (hfile _ _ _ _ _ hstep) (ihrest _ _ _ _ _ hrest)
  | null k rest ihrest =>
      intro fs base r fs' ev h
      rw [createLoop_null_eq] at h
      by_cases hk : keyIsMeta k
      · exact ihrest fs base r fs' ev (by simpa [scalarBranch, hk] using h)
      · simp only [scalarBranch, hk, Bool.false_eq_true, if_false] at h
        split at h
        · cases h
        next fsA evA hstep =>
          split at h
          · cases h
          next rRest fsC evC hrest =>
            cases h
            exact htrans _ _ _ (hfile _ _ _ _ _ hstep) (ihrest _ _ _ _ _ hrest)

theorem writeFileFS_exists (fs fs' : FS) (p : Path) (c : String) (x : Path)
    (h : writeFileFS fs p c = Option.some fs') (hx : fsExists fs x = true) :
    fsExists fs' x = true := by
  rw [fsExists_iff] at hx ⊢
  rw [writeFileFS_lookup fs fs' p c x h]
  by_cases hxp : x = p
  · exact ⟨Entry.file c, by simp [hxp]⟩
  · obtain ⟨e, he⟩ := hx
    exact ⟨e, by simp [hxp, he]⟩

theorem createFileStep_mono (fs fsA : FS) (current : Path) (content : String)
    (ow : Bool) (ev : List Event)
    (h : createFileStep fs current content ow = Except.ok (fsA, ev)) :
    ∀ x, fsExists fs x = true → fsExists fsA x = true := by
  obtain ⟨fs1, hmk, hcase⟩ := createFileStep_ok fs fsA current content ow ev h
  intro x hx
  have h1 : fsExists fs1 x = true := mkdirParents_mono fs fs1 _ x hmk hx
  rcases hcase with ⟨-, hw, -⟩ | ⟨-, rfl, -, -⟩
  · exact writeFileFS_exists fs1 fsA current content x hw h1
  · exact h1

theorem createFileStep_dir_preserve (fs fsA : FS) (current : Path) (content : String)
    (ow : Bool) (ev : List Event)
    (h : createFileStep fs current content ow = Except.ok (fsA, ev)) :
    ∀ x, fsLookup fs x = Option.some Entry.dir →
      fsLookup fsA x = Option.some Entry.dir := by
  obtain ⟨fs1, hmk, hcase⟩ := createFileStep_ok fs fsA current content ow ev h
  intro x hx
  have h1 : fsLookup fs1 x = Option.some Entry.dir :=
    mkdirParents_preserve fs fs1 _ x Entry.dir hmk hx
  rcases hcase with ⟨-, hw, -⟩ | ⟨-, rfl, -, -⟩
  · have hne : x ≠ current := by
      intro hxc
      exact writeFileFS_not_dir fs1 fsA current content hw (hxc ▸ h1)
    rw [writeFileFS_lookup fs1 fsA current content x hw, if_neg hne]
    exact h1
  · exact h1

theorem createFileStep_file_preserve (fs fsA : FS) (current : Path) (content : String)
    (ev : List Event)
    (h : createFileStep fs current content false = Except.ok (fsA, ev)) :
    ∀ x c, fsLookup fs x = Option.some (Entry.file c) →
      fsLookup fsA x = Option.some (Entry.file c) := by
  obtain ⟨fs1, hmk, hcase⟩ := createFileStep_ok fs fsA current content false ev h
  intro x c hx
  have h1 : fsLookup fs1 x = Option.some (Entry.file c) :=
    mkdirParents_preserve fs fs1 _ x (Entry.file c) hmk hx
  rcases hcase with ⟨-, hw, hcond⟩ | ⟨-, rfl, -, -⟩
  · have hne : x ≠ current := by
      intro hxc
      subst hxc
      have : fsExists fs1 x = true := by
        rw [fsExists_iff]
        exact ⟨_, h1⟩
      simp [this] at hcond
    rw [writeFileFS_lookup fs1 fsA current content x hw, if_neg hne]
    exact h1
  · exact h1

theorem createDirStep_mono (fs fsA : FS) (current : Path) (sub : Entries) (ev : List Event)
    (h : createDirStep fs current sub = Except.ok (fsA, ev)) :
    ∀ x, fsExists fs x = true → fsExists fsA x = true := by
  obtain ⟨hmk, -⟩ := createDirStep_ok fs fsA current sub ev h
  exact fun x hx => mkdirParents_mono fs fsA current x hmk hx

/-- A successful non-dry creation run only grows the backend: every existing
path still exists afterwards. -/
theorem createLoop_mono (st : Entries) (fs : FS) (base : Path) (ow : Bool)
    (r : ResultTree) (fs' : FS) (ev : List Event)
    (h : createLoop fs base st ow false = Except.ok (r, fs', ev)) :
    ∀ x, fsExists fs x = true → fsExists fs' x = true := by
  refine createLoop_rel (fun a b => ∀ x, fsExists a x = true → fsExists b x = true) ow
    (fun fs x hx => hx) (fun a b c hab hbc x hx => hbc x (hab x hx))
    ?_ ?_ ?_ st fs base r fs' ev h
  · exact fun fs fs' current sub ev h => createDirStep_mono fs fs' current sub ev h
  · exact fun fs fs' p h x hx => mkdirParents_mono fs fs' p x h hx
  · exact fun fs fs' current content ev h => createFileStep_mono fs fs' current content ow ev h

/-- A successful non-dry creation run never turns a directory into anything
else. -/
theorem createLoop_dir_preserve (st : Entries) (fs : FS) (base : Path) (ow : Bool)
    (r : ResultTree) (fs' : FS) (ev : List Event)
    (h : createLoop fs base st ow false = Except.ok (r, fs', ev)) :
    ∀ x, fsLookup fs x = Option.some Entry.dir →
      fsLookup fs' x = Option.some Entry.dir := by
  refine createLoop_rel
    (fun a b => ∀ x, fsLookup a x = Option.some Entry.dir →
      fsLookup b x = Option.some Entry.dir) ow
    (fun fs x hx => hx) (fun a b c hab hbc x hx => hbc x (hab x hx))
    ?_ ?_ ?_ st fs base r fs' ev h
  · intro fs fs' current sub ev h
    obtain ⟨hmk, -⟩ := createDirStep_ok fs fs' current sub ev h
    exact fun x hx => mkdirParents_preserve fs fs' current x Entry.dir hmk hx
  · exact fun fs fs' p h x hx => mkdirParents_preserve fs fs' p x Entry.dir h hx
  · exact fun fs fs' current content ev h =>
      createFileStep_dir_preserve fs fs' current content ow ev h

/-- With `overwrite=false`, a successful non-dry creation run preserves every
pre-existing file together with its content. -/
theorem createLoop_file_preserve (st : Entries) (fs : FS) (base : Path)
    (r : ResultTree) (fs' : FS) (ev : List Event)
    (h : createLoop fs base st false false = Except.ok (r, fs', ev)) :
    ∀ x c, fsLookup fs x = Option.some (Entry.file c) →
      fsLookup fs' x = Option.some (Entry.file c) := by
  refine createLoop_rel
    (fun a b => ∀ x c, fsLookup a x = Option.some (Entry.file c) →
      fsLookup b x = Option.some (Entry.file c)) false
    (fun fs x c hx => hx) (fun a b c hab hbc x c0 hx => hbc x c0 (hab x c0 hx))
    ?_ ?_ ?_ st fs base r fs' ev h
  · intro fs fs' current sub ev h
    obtain ⟨hmk, -⟩ := createDirStep_ok fs fs' current sub ev h
    exact fun x c hx => mkdirParents_preserve fs fs' current x (Entry.file c) hmk hx
  · exact fun fs fs' p h x c hx => mkdirParents_preserve fs fs' p x (Entry.file c) h hx
  · exact fun fs fs' current content ev h =>
      createFileStep_file_preserve fs fs' current content ev h

theorem not_mem_of_contains_false (l : List String) (k : String)
    (h : l.contains k = false) : ¬ k ∈ l := by
  simpa using h

theorem prefix_snoc_cases (x b : Path) (a : String) (h : x <+: b ++ [a]) :
    x <+: b ∨ x = b ++ [a] := by
  rcases h with ⟨t, ht⟩
  cases t using List.reverseRecOn with
  | nil => exact Or.inr (by simpa using ht)
  | append_singleton t' c ih =>
      left
      have h2 : (x ++ t') ++ [c] = b ++ [a] := by simpa [List.append_assoc] using ht
      have h3 : x ++ t' = b := by
        have := congrArg List.dropLast h2
        simpa using this
      exact ⟨t', h3⟩

theorem wfKeys_dict_parts (k : String) (sub rest : Entries)
    (h : wfKeys (Entries.dict k sub rest) = true) :
    ¬ k ∈ keysOf rest ∧ wfKeys sub = true ∧ wfKeys rest = true := by
  have h' : (¬ k ∈ keysOf rest ∧ wfKeys sub = true) ∧ wfKeys rest = true := by
    simpa [wfKeys] using h
  exact ⟨h'.1.1, h'.1.2, h'.2⟩

theorem wfKeys_str_parts (k s : String) (rest : Entries)
    (h : wfKeys (Entries.str k s rest) = true) :
    ¬ k ∈ keysOf rest ∧ wfKeys rest = true := by
  have h' : ¬ k ∈ keysOf rest ∧ wfKeys rest = true := by
    simpa [wfKeys] using h
  exact h'

theorem wfKeys_int_parts (k : String) (n : Int) (rest : Entries)
    (h : wfKeys (Entries.int k n rest) = true) :
    ¬ k ∈ keysOf rest ∧ wfKeys rest = true := by
  have h' : ¬ k ∈ keysOf rest ∧ wfKeys rest = true := by
    simpa [wfKeys] using h
  exact h'

theorem wfKeys_null_parts (k : String) (rest : Entries)
    (h : wfKeys (Entries.null k rest) = true) :
    ¬ k ∈ keysOf rest ∧ wfKeys rest = true := by
  have h' : ¬ k ∈ keysOf rest ∧ wfKeys rest = true := by
    simpa [wfKeys] using h
  exact h'

/-! ### Dry-run behaviour and result determinism -/

theorem createLoop_dry (st : Entries) : ∀ (fs : FS) (base : Path) (ow : Bool),
    createLoop fs base st ow true = Except.ok (resultOf base st, fs, []) := by
  induction st with
  | nil => intro fs base ow; rfl
  | dict k sub rest ihsub ihrest =>
      intro fs base ow
      by_cases hk : keyIsMeta k <;>
        simp [createLoop, resultOf, hk, ihsub, ihrest]
  | str k s rest ihrest =>
      intro fs base ow
      by_cases hk : keyIsMeta k <;>
        simp [createLoop_str_eq, scalarBranch, resultOf, hk, ihrest]
  | int k n rest ihrest =>
      intro fs base ow
      by_cases hk : keyIsMeta k <;>
        simp [createLoop_int_eq, scalarBranch, resultOf, hk, ihrest]
  | null k rest ihrest =>
      intro fs base ow
      by_cases hk : keyIsMeta k <;>
        simp [createLoop_null_eq, scalarBranch, resultOf, hk, ihrest]

theorem createLoop_result (st : Entries) :
    ∀ (fs : FS) (base : Path) (ow : Bool) (r : ResultTree) (fs' : FS) (ev : List Event),
      createLoop fs base st ow false = Except.ok (r, fs', ev) → r = resultOf base st := by
  induction st with
  | nil =>
      intro fs base ow r fs' ev h
      cases h
      rfl
  | dict k sub rest ihsub ihrest =>
      intro fs base ow r fs' ev h
      by_cases hk : keyIsMeta k
      · rw [ihrest fs base ow r fs' ev (by simpa [createLoop, hk] using h)]
        simp [resultOf, hk]
      · simp only [createLoop, hk, Bool.false_eq_true, if_false] at h
        split at h
        · cases h
        next fsA evA hstep =>
          split at h
          · cases h
          next fsB hmk2 =>
            split at h
            · cases h
            next rSub fsC evB hsub =>
              split at h
              · cases h
              next rRest fsD evC hrest =>
                cases h
                rw [ihsub _ _ _ _ _ _ hsub, ihrest _ _ _ _ _ _ hrest]
                simp [resultOf, hk]
  | str k s rest ihrest =>
      intro fs base ow r fs' ev h
      rw [createLoop_str_eq] at h
      by_cases hk : keyIsMeta k
      · rw [ihrest fs base ow r fs' ev (by simpa [scalarBranch, hk] using h)]
        simp [resultOf, hk]
      · simp only [scalarBranch, hk, Bool.false_eq_true, if_false] at h
        split at h
        · cases h
        next fsA evA hstep =>
          split at h
          · cases h
          next rRest fsC evC hrest =>
            cases h
            rw [ihrest _ _ _ _ _ _ hrest]
            simp [resultOf, hk]
  | int k n rest ihrest =>
      intro fs base ow r fs' ev h
      rw [createLoop_int_eq] at h
      by_cases hk : keyIsMeta k
      · rw [ihrest fs base ow r fs' ev (by simpa [scalarBranch, hk] using h)]
        simp [resultOf, hk]
      · simp only [scalarBranch, hk, Bool.false_eq_true, if_false] at h
        split at h
        · cases h
        next fsA evA hstep =>
          split at h
          · cases h
          next rRest fsC evC hrest =>
            cases h
            rw [ihrest _ _ _ _ _ _ hrest]
            simp [resultOf, hk]
  | null k rest ihrest =>
      intro fs base ow r fs' ev h
      rw [createLoop_null_eq] at h
      by_cases hk : keyIsMeta k
      · rw [ihrest fs base ow r fs' ev (by simpa [scalarBranch, hk] using h)]
        simp [resultOf, hk]
      · simp only [scalarBranch, hk, Bool.false_eq_true, if_false] at h
        split at h
        · cases h
        next fsA evA hstep =>
          split at h
          · cases h
          next rRest fsC evC hrest =>
            cases h
            rw [ihrest _ _ _ _ _ _ hrest]
            simp [resultOf, hk]

/-! ### Coverage of the result tree -/

theorem coversb_skip (st : Entries) (k : String) (hk : ¬ k ∈ keysOf st) :
    (∀ rsub r', coversb (ResultTree.node k rsub r') st = coversb r' st) ∧
    (∀ p r', coversb (ResultTree.leaf k p r') st = coversb r' st) := by
  induction st with
  | nil => exact ⟨fun _ _ => rfl, fun _ _ => rfl⟩
  | dict k1 sub rest ihsub ihrest =>
      have hne : ¬ k = k1 := fun h => hk (h ▸ by simp [keysOf])
      have hrest : ¬ k ∈ keysOf rest := fun h => hk (by simp [keysOf, h])
      refine ⟨fun rsub r' => ?_, fun p r' => ?_⟩ <;>
        simp [coversb, resLookup, hne, (ihrest hrest).1, (ihrest hrest).2]
  | str k1 s rest ihrest =>
      have hne : ¬ k = k1 := fun h => hk (h ▸ by simp [keysOf])
      have hrest : ¬ k ∈ keysOf rest := fun h => hk (by simp [keysOf, h])
      refine ⟨fun rsub r' => ?_, fun p r' => ?_⟩ <;>
        simp [coversb, resLookup, hne, (ihrest hrest).1, (ihrest hrest).2]
  | int k1 n rest ihrest =>
      have hne : ¬ k = k1 := fun h => hk (h ▸ by simp [keysOf])
      have hrest : ¬ k ∈ keysOf rest := fun h => hk (by simp [keysOf, h])
      refine ⟨fun rsub r' => ?_, fun p r' => ?_⟩ <;>
        simp [coversb, resLookup, hne, (ihrest hrest).1, (ihrest hrest).2]
  | null k1 rest ihrest =>
      have hne : ¬ k = k1 := fun h => hk (h ▸ by simp [keysOf])
      have hrest : ¬ k ∈ keysOf rest := fun h => hk (by simp [keysOf, h])
      refine ⟨fun rsub r' => ?_, fun p r' => ?_⟩ <;>
        simp [coversb, resLookup, hne, (ihrest hrest).1, (ihrest hrest).2]

theorem coversb_resultOf (st : Entries) : ∀ (base : Path), wfKeys st = true →
    coversb (resultOf base st) st = true := by
  induction st with
  | nil => intro base _; rfl
  | dict k sub rest ihsub ihrest =>
      intro base hwf
      obtain ⟨hmem, hwsub, hwrest⟩ := wfKeys_dict_parts k sub rest hwf
      by_cases hk : keyIsMeta k
      · simp [coversb, resultOf, hk, (coversb_skip rest k hmem).1, ihrest base hwrest]
      · simp [coversb, resultOf, hk, resLookup, ihsub (base ++ [k]) hwsub,
          (coversb_skip rest k hmem).1, ihrest base hwrest]
  | str k s rest ihrest =>
      intro base hwf
      obtain ⟨hmem, hwrest⟩ := wfKeys_str_parts k s rest hwf
      by_cases hk : keyIsMeta k <;>
        simp [coversb, resultOf, hk, resLookup, (coversb_skip rest k hmem).2,
          ihrest base hwrest]
  | int k n rest ihrest =>
      intro base hwf
      obtain ⟨hmem, hwrest⟩ := wfKeys_int_parts k n rest hwf
      by_cases hk : keyIsMeta k <;>
        simp [coversb, resultOf, hk, resLookup, (coversb_skip rest k hmem).2,
          ihrest base hwrest]
  | null k rest ihrest =>
      intro base hwf
      obtain ⟨hmem, hwrest⟩ := wfKeys_null_parts k rest hwf
      by_cases hk : keyIsMeta k <;>
        simp [coversb, resultOf, hk, resLookup, (coversb_skip rest k hmem).2,
          ihrest base hwrest]

/-! ### Metadata exclusion for render and flatten -/

theorem hasNonMeta_deepFilter (st : Entries) :
    hasNonMeta (deepFilter st) = hasNonMeta st := by
  induction st with
  | nil => rfl
  | dict k sub rest ihsub ihrest =>
      by_cases hk : keyIsMeta k <;> simp [deepFilter, hasNonMeta, hk, ihrest]
  | str k s rest ihrest =>
      by_cases hk : keyIsMeta k <;> simp [deepFilter, hasNonMeta, hk, ihrest]
  | int k n rest ihrest =>
      by_cases hk : keyIsMeta k <;> simp [deepFilter, hasNonMeta, hk, ihrest]
  | null k rest ihrest =>
      by_cases hk : keyIsMeta k <;> simp [deepFilter, hasNonMeta, hk, ihrest]

theorem summaryGo_deepFilter (st : Entries) : ∀ (indent : String),
    summaryGo indent (deepFilter st) = summaryGo indent st := by
  induction st with
  | nil => intro indent; rfl
  | dict k sub rest ihsub ihrest =>
      intro indent
      by_cases hk : keyIsMeta k <;>
        simp [deepFilter, summaryGo, hk, hasNonMeta_deepFilter, ihsub, ihrest]
  | str k s rest ihrest =>
      intro indent
      by_cases hk : keyIsMeta k <;>
        simp [deepFilter, summaryGo, hk, hasNonMeta_deepFilter, ihrest]
  | int k n rest ihrest =>
      intro indent
      by_cases hk : keyIsMeta k <;>
        simp [deepFilter, summaryGo, hk, hasNonMeta_deepFilter, ihrest]
  | null k rest ihrest =>
      intro indent
      by_cases hk : keyIsMeta k <;>
        simp [deepFilter, summaryGo, hk, hasNonMeta_deepFilter, ihrest]

theorem flatGo_deepFilter (st : Entries) :
    ∀ (base : Path) (sep pk : String) (acc : List (String × Path)),
      flatGo base (deepFilter st) sep pk acc = flatGo base st sep pk acc := by
  induction st with
  | nil => intro base sep pk acc; rfl
  | dict k sub rest ihsub ihrest =>
      intro base sep pk acc
      by_cases hk : keyIsMeta k <;>
        simp [deepFilter, flatGo, hk, ihsub, ihrest]
  | str k s rest ihrest =>
      intro base sep pk acc
      by_cases hk : keyIsMeta k <;> simp [deepFilter, flatGo, hk, ihrest]
  | int k n rest ihrest =>
      intro base sep pk acc
      by_cases hk : keyIsMeta k <;> simp [deepFilter, flatGo, hk, ihrest]
  | null k rest ihrest =>
      intro base sep pk acc
      by_cases hk : keyIsMeta k <;> simp [deepFilter, flatGo, hk, ihrest]

/-! ### Which paths a creation run can touch -/

theorem createDirStep_changed (fs fsA : FS) (current : Path) (sub : Entries)
    (ev : List Event) (h : createDirStep fs current sub = Except.ok (fsA, ev)) :
    ∀ x, fsLookup fsA x ≠ fsLookup fs x → x ≠ [] ∧ x <+: current := by
  obtain ⟨hmk, -⟩ := createDirStep_ok fs fsA current sub ev h
  exact fun x hx => (mkdirParents_changed fs fsA current x hmk hx).1

theorem createFileStep_changed (fs fsA : FS) (current : Path) (content : String)
    (ow : Bool) (ev : List Event)
    (h : createFileStep fs current content ow = Except.ok (fsA, ev)) :
    ∀ x, fsLookup fsA x ≠ fsLookup fs x →
      (x ≠ [] ∧ x <+: current.dropLast) ∨ x = current := by
  obtain ⟨fs1, hmk, hcase⟩ := createFileStep_ok fs fsA current content ow ev h
  intro x hx
  by_cases h1 : fsLookup fs1 x = fsLookup fs x
  · rcases hcase with ⟨-, hw, -⟩ | ⟨-, rfl, -, -⟩
    · by_cases hxc : x = current
      · exact Or.inr hxc
      · exact absurd (by rw [writeFileFS_lookup _ _ _ _ _ hw, if_neg hxc, h1]) hx
    · exact absurd h1 hx
  · exact Or.inl (mkdirParents_changed fs fs1 _ x hmk h1).1

/-- Every path whose entry a successful non-dry creation loop changes is
either a (nonempty) prefix of the base path (created by a parents-enabled
mkdir) or the base joined with a nonempty chain of non-metadata segments. -/
theorem createLoop_changed (st : Entries) :
    ∀ (fs : FS) (base : Path) (ow : Bool) (r : ResultTree) (fs' : FS) (ev : List Event),
      createLoop fs base st ow false = Except.ok (r, fs', ev) →
      ∀ x, fsLookup fs' x ≠ fsLookup fs x →
        (x ≠ [] ∧ x <+: base) ∨
        (∃ c, c ≠ [] ∧ x = base ++ c ∧ ∀ s ∈ c, keyIsMeta s = false) := by
  induction st with
  | nil =>
      intro fs base ow r fs' ev h x hx
      cases h
      exact absurd rfl hx
  | dict k sub rest ihsub ihrest =>
      intro fs base ow r fs' ev h x hx
      by_cases hk : keyIsMeta k
      · exact ihrest fs base ow r fs' ev (by simpa [createLoop, hk] using h) x hx
      · have hk' : keyIsMeta k = false := by simpa using hk
        simp only [createLoop, hk, Bool.false_eq_true, if_false] at h
        split at h
        · cases h
        next fsA evA hstep =>
          split at h
          · cases h
          next fsB hmk2 =>
            split at h
            · cases h
            next rSub fsC evB hsub =>
              split at h
              · cases h
              next rRest fsD evC hrest =>
                cases h
                have liftSnoc : (x ≠ [] ∧ x <+: base ++ [k]) →
                    (x ≠ [] ∧ x <+: base) ∨
                    (∃ c, c ≠ [] ∧ x = base ++ c ∧ ∀ s ∈ c, keyIsMeta s = false) := by
                  rintro ⟨hne, hpre⟩
                  rcases prefix_snoc_cases x base k hpre with hb | hx2
                  · exact Or.inl ⟨hne, hb⟩
                  · refine Or.inr ⟨[k], by simp, hx2, ?_⟩
                    intro s hs
                    simp at hs
                    subst hs
                    exact hk'
                by_cases e1 : fsLookup fsA x = fsLookup fs x
                · by_cases e2 : fsLookup fsB x = fsLookup fsA x
                  · by_cases e3 : fsLookup fsC x = fsLookup fsB x
                    · have e4 : fsLookup fs' x ≠ fsLookup fsC x := fun he =>
                        hx (he.trans (e3.trans (e2.trans e1)))
                      exact ihrest fsC base ow rRest fs' evC hrest x e4
                    · rcases ihsub fsB (base ++ [k]) ow rSub fsC evB hsub x e3 with
                        hb | ⟨c, hc, hxc, hmf⟩
                      · exact liftSnoc hb
                      · refine Or.inr ⟨k :: c, by simp, ?_, ?_⟩
                        · rw [hxc, List.append_assoc]
                          rfl
                        · intro s hs
                          rcases List.mem_cons.mp hs with rfl | hs2
                          · exact hk'
                          · exact hmf s hs2
                  · exact liftSnoc (mkdirParents_changed fsA fsB _ x hmk2 e2).1
                · exact liftSnoc (createDirStep_changed fs fsA _ sub evA hstep x e1)
  | str k s rest ihrest =>
      intro fs base ow r fs' ev h x hx
      rw [createLoop_str_eq] at h
      by_cases hk : keyIsMeta k
      · exact ihrest fs base ow r fs' ev (by simpa [scalarBranch, hk] using h) x hx
      · have hk' : keyIsMeta k = false := by simpa using hk
        simp only [scalarBranch, hk, Bool.false_eq_true, if_false] at h
        split at h
        · cases h
        next fsA evA hstep =>
          split at h
          · cases h
          next rRest fsC evC hrest =>
            cases h
            by_cases e1 : fsLookup fsA x = fsLookup fs x
            · have e2 : fsLookup fs' x ≠ fsLookup fsA x := fun he => hx (he.trans e1)
              exact ihrest fsA base ow rRest fs' evC hrest x e2
            · rcases createFileStep_changed fs fsA _ _ ow evA hstep x e1 with ⟨hne, hpre⟩ | hx2
              · exact Or.inl ⟨hne, by simpa using hpre⟩
              · refine Or.inr ⟨[k], by simp, hx2, ?_⟩
                intro s2 hs2
                simp at hs2
                subst hs2
                exact hk'
  | int k n rest ihrest =>
      intro fs base ow r fs' ev h x hx
      rw [createLoop_int_eq] at h
      by_cases hk : keyIsMeta k
      · exact ihrest fs base ow r fs' ev (by simpa [scalarBranch, hk] using h) x hx
      · have hk' : keyIsMeta k = false := by simpa using hk
        simp only [scalarBranch, hk, Bool.false_eq_true, if_false] at h
        split at h
        · cases h
        next fsA evA hstep =>
          split at h
          · cases h
          next rRest fsC evC hrest =>
            cases h
            by_cases e1 : fsLookup fsA x = fsLookup fs x
            · have e2 : fsLookup fs' x ≠ fsLookup fsA x := fun he => hx (he.trans e1)
              exact ihrest fsA base ow rRest fs' evC hrest x e2
            · rcases createFileStep_changed fs fsA _ _ ow evA hstep x e1 with ⟨hne, hpre⟩ | hx2
              · exact Or.inl ⟨hne, by simpa using hpre⟩
              · refine Or.inr ⟨[k], by simp, hx2, ?_⟩
                intro s2 hs2
                simp at hs2
                subst hs2
                exact hk'
  | null k rest ihrest =>
      intro fs base ow r fs' ev h x hx
      rw [createLoop_null_eq] at h
      by_cases hk : keyIsMeta k
      · exact ihrest fs base ow r fs' ev (by simpa [scalarBranch, hk] using h) x hx
      · have hk' : keyIsMeta k = false := by simpa using hk
        simp only [scalarBranch, hk, Bool.false_eq_true, if_false] at h
        split at h
        · cases h
        next fsA evA hstep =>
          split at h
          · cases h
          next rRest fsC evC hrest =>
            cases h
            by_cases e1 : fsLookup fsA x = fsLookup fs x
            · have e2 : fsLookup fs' x ≠ fsLookup fsA x := fun he => hx (he.trans e1)
              exact ihrest fsA base ow rRest fs' evC hrest x e2
            · rcases createFileStep_changed fs fsA _ _ ow evA hstep x e1 with ⟨hne, hpre⟩ | hx2
              · exact Or.inl ⟨hne, by simpa using hpre⟩
              · refine Or.inr ⟨[k], by simp, hx2, ?_⟩
                intro s2 hs2
                simp at hs2
                subst hs2
                exact hk'

/-! ### Claim theorems: dry-run purity and metadata exclusion -/

/-- Claim C7: `create` in dry-run mode performs no backend mutation — the
state and its existence facts are unchanged and the mutation trace is empty —
while still recursing into every directory child: the returned ResultTree is
the full result for the spec and covers every non-metadata entry of it. -/
theorem C7_create_dry_run (fs : FS) (base : Path) (st : Entries) (ow : Bool) :
    create_folder_tree fs base st ow true = Except.ok (resultOf base st, fs, []) ∧
    (wfKeys st = true → coversb (resultOf base st) st = true) := by
  constructor
  · simp [create_folder_tree, createLoop_dry]
  · exact fun hwf => coversb_resultOf st base hwf

theorem C7_create_dry_run_witness :
    create_folder_tree [] ["b"]
        (Entries.dict "d" (Entries.null "f" Entries.nil) Entries.nil) false true =
      Except.ok (ResultTree.node "d"
        (ResultTree.leaf "f" ["b", "d", "f"] ResultTree.nil) ResultTree.nil, [], []) ∧
    coversb (resultOf ["b"] (Entries.dict "d" (Entries.null "f" Entries.nil) Entries.nil))
      (Entries.dict "d" (Entries.null "f" Entries.nil) Entries.nil) = true := by
  have h := C7_create_dry_run [] ["b"]
    (Entries.dict "d" (Entries.null "f" Entries.nil) Entries.nil) false
  exact ⟨h.1, h.2 (by decide)⟩

/-- Claim C8: keys beginning with the underscore prefix are never materialized
as filesystem entries by `create` (every path a non-dry run adds is the base,
a prefix of it, or the base joined with non-metadata segments only), never
produce a line in the `render` output, and never produce an entry in the
`flatten` output (both outputs are unchanged when the metadata keys are
removed from the spec beforehand). -/
theorem C8_metadata_exclusion :
    (∀ (fs : FS) (base : Path) (st : Entries) (ow : Bool) (r : ResultTree)
        (fs' : FS) (ev : List Event),
      create_folder_tree fs base st ow false = Except.ok (r, fs', ev) →
      ∀ x, (fsLookup fs' x).isSome = true →
        (fsLookup fs x).isSome = true ∨ (x ≠ [] ∧ x <+: base) ∨
        (∃ c, c ≠ [] ∧ x = base ++ c ∧ ∀ s ∈ c, keyIsMeta s = false)) ∧
    (∀ (st : Entries) (indent : String) (l : Bool),
      generate_tree_summary st indent l = generate_tree_summary (deepFilter st) indent l) ∧
    (∀ (base : Path) (st : Entries) (sep pk : String),
      get_flat_path_map base st sep pk = get_flat_path_map base (deepFilter st) sep pk) := by
  refine ⟨?_, ?_, ?_⟩
  · intro fs base st ow r fs' ev h x hsome
    have hfalse : (false = true) = False := by simp
    simp only [create_folder_tree, Bool.false_eq_true, if_false] at h
    split at h
    · cases h
    next fs1 hmk =>
      split at h
      · cases h
      next r2 fs2 ev2 hloop =>
        cases h
        by_cases heq : fsLookup fs' x = fsLookup fs x
        · exact Or.inl (by rw [← heq]; exact hsome)
        · by_cases e1 : fsLookup fs1 x = fsLookup fs x
          · have e2 : fsLookup fs' x ≠ fsLookup fs1 x := fun he => heq (he.trans e1)
            exact Or.inr (createLoop_changed st fs1 base ow r fs' ev2 hloop x e2)
          · exact Or.inr (Or.inl (mkdirParents_changed fs fs1 base x hmk e1).1)
  · intro st indent l
    simp [generate_tree_summary, summaryGo_deepFilter]
  · intro base st sep pk
    simp [get_flat_path_map, flatGo_deepFilter]

theorem C8_metadata_exclusion_witness :
    ((fsLookup ([] : FS) ["b", "a"]).isSome = true ∨
      ((["b", "a"] : Path) ≠ [] ∧ (["b", "a"] : Path) <+: ["b"]) ∨
      (∃ c, c ≠ [] ∧ (["b", "a"] : Path) = ["b"] ++ c ∧
        ∀ s ∈ c, keyIsMeta s = false)) ∧
    generate_tree_summary (Entries.int "_perms" 7 (Entries.null "a" Entries.nil)) "" true =
      generate_tree_summary
        (deepFilter (Entries.int "_perms" 7 (Entries.null "a" Entries.nil))) "" true ∧
    get_flat_path_map ["b"] (Entries.int "_perms" 7 (Entries.null "a" Entries.nil)) "_" "" =
      get_flat_path_map ["b"]
        (deepFilter (Entries.int "_perms" 7 (Entries.null "a" Entries.nil))) "_" "" := by
  refine ⟨?_, C8_metadata_exclusion.2.1 _ "" true, C8_metadata_exclusion.2.2 ["b"] _ "_" ""⟩
  exact C8_metadata_exclusion.1 [] ["b"]
    (Entries.int "_perms" 7 (Entries.null "a" Entries.nil)) false
    (ResultTree.leaf "a" ["b", "a"] ResultTree.nil)
    [(["b", "a"], Entry.file ""), (["b"], Entry.dir)]
    [Event.mkdir ["b"], Event.mkdir ["b"], Event.write ["b", "a"] ""]
    (by rfl) ["b", "a"] (by rfl)

/-! ### Deletion ordering -/

theorem fsExists_of_mem (fs : FS) (q : Path) (e : Entry) (h : (q, e) ∈ fs) :
    fsExists fs q = true := by
  induction fs with
  | nil => cases h
  | cons qe rest ih =>
      rcases List.mem_cons.mp h with heq | h2
      · rw [← heq]
        simp [fsExists, fsLookup]
      · obtain ⟨q1, e1⟩ := qe
        by_cases hq : q1 = q
        · simp [fsExists, fsLookup, hq]
        · simpa [fsExists, fsLookup, hq] using ih h2

theorem fsExists_mem_keys (fs : FS) (q : Path) (h : fsExists fs q = true) :
    q ∈ fs.map Prod.fst := by
  induction fs with
  | nil => simp [fsExists, fsLookup] at h
  | cons qe rest ih =>
      obtain ⟨q1, e1⟩ := qe
      by_cases hq : q1 = q
      · subst hq
        exact List.mem_cons_self _ _
      · simp only [List.map_cons, List.mem_cons]
        exact Or.inr (ih (by simpa [fsExists, fsLookup, hq] using h))

theorem dirHasChildren_spec (fs : FS) (p : Path) (h : dirHasChildren fs p = true) :
    ∃ q2, fsExists fs q2 = true ∧ p <+: q2 ∧ q2 ≠ p := by
  unfold dirHasChildren at h
  rcases List.any_eq_true.mp h with ⟨⟨q2, e⟩, hmem, hcond⟩
  rcases Bool.and_eq_true_iff.mp hcond with ⟨h1, h2⟩
  refine ⟨q2, fsExists_of_mem fs q2 e hmem, ?_, ?_⟩
  · exact List.isPrefixOf_iff_prefix.mp h1
  · intro heq
    simp [heq] at h2

/-- The post-order invariant of the deletion loop: processing a
length-descending list of spec paths (in a state whose strict descendants of
spec paths are themselves spec paths) never reaches a directory-removal
attempt while some spec path strictly below the attempted directory still
exists. -/
theorem deleteRun_inv (S : List Path) (fs0 : FS)
    (hH : ∀ q, fsExists fs0 q = true →
      (∃ p ∈ S, p <+: q ∧ p ≠ q) → q ∈ S)
    (hne : ∀ q ∈ S, q ≠ []) :
    ∀ (l : List Path) (s : FS),
      List.Pairwise (fun a b => strLen b ≤ strLen a) l →
      (∀ q, fsExists s q = true → fsExists fs0 q = true) →
      (∀ q ∈ S, q ∉ l → fsExists s q = false) →
      (∀ q ∈ l, q ∈ S) →
      ∀ sp ∈ runStates s l, fsLookup sp.fst sp.snd = Option.some Entry.dir →
        ∀ q ∈ S, sp.snd <+: q → sp.snd ≠ q → fsExists sp.fst q = false := by
  intro l
  induction l with
  | nil =>
      intro s _ _ _ _ sp hsp
      cases hsp
  | cons p rest ih =>
      intro s hpair hdom hgone hsubset sp hsp
      have hppair := List.pairwise_cons.mp hpair
      have hpS : p ∈ S := hsubset p (List.mem_cons_self _ _)
      have hpne : p ≠ [] := hne p hpS
      have hlater : ∀ q ∈ S, p <+: q → p ≠ q → q ∉ p :: rest := by
        intro q hqS hpre hneq hmem
        obtain ⟨c, hc⟩ := hpre
        have hcne : c ≠ [] := by
          intro hcnil
          exact hneq (by simp [← hc, hcnil])
        have hlen : strLen p < strLen q := by
          rw [← hc]
          exact strLen_lt_append p c hpne hcne
        rcases List.mem_cons.mp hmem with rfl | hmem2
        · omega
        · have := hppair.1 q hmem2
          omega
      rcases List.mem_cons.mp hsp with rfl | hsp2
      · intro hdir q hqS hpre hneq
        have hnot : q ∉ p :: rest := hlater q hqS hpre hneq
        exact hgone q hqS hnot
      · -- the invariant carries over one deletion step
        have hdom1 : ∀ q, fsExists (deleteStep s p).fst q = true → fsExists fs0 q = true :=
          fun q hq => hdom q (deleteStep_dom s p q hq)
        have hgone1 : ∀ q ∈ S, q ∉ rest → fsExists (deleteStep s p).fst q = false := by
          intro q hqS hqrest
          by_cases hqp : q = p
          · rw [hqp]
            -- the attempt on p removes it when present
            unfold deleteStep
            by_cases he : fsExists s p
            · rw [if_pos he]
              cases hl : fsLookup s p with
              | none =>
                  rw [fsExists_iff] at he
                  obtain ⟨e, he2⟩ := he
                  rw [he2] at hl
                  cases hl
              | some e =>
                  cases e with
                  | file c =>
                      simp [fsExists, fsLookup_fsErase]
                  | dir =>
                      have hempty : dirHasChildren s p = false := by
                        cases hch : dirHasChildren s p
                        · rfl
                        · exfalso
                          obtain ⟨q2, hq2ex, hq2pre, hq2ne⟩ := dirHasChildren_spec s p hch
                          have hq2S : q2 ∈ S :=
                            hH q2 (hdom q2 hq2ex) ⟨p, hpS, hq2pre, fun h => hq2ne h.symm⟩
                          have hq2not : q2 ∉ p :: rest :=
                            hlater q2 hq2S hq2pre (fun h => hq2ne h.symm)
                          rw [hgone q2 hq2S hq2not] at hq2ex
                          cases hq2ex
                      simp [hempty, fsExists, fsLookup_fsErase]
            · rw [if_neg he]
              simpa using he
          · have hqnot : q ∉ p :: rest := by
              intro hmem
              rcases List.mem_cons.mp hmem with h1 | h2
              · exact hqp h1
              · exact hqrest h2
            have h0 : fsExists s q = false := hgone q hqS hqnot
            cases h1 : fsExists (deleteStep s p).fst q
            · rfl
            · rw [deleteStep_dom s p q h1] at h0
              cases h0
        exact ih (deleteStep s p).fst hppair.2 hdom1 hgone1
          (fun q hq => hsubset q (List.mem_cons_of_mem _ hq)) sp hsp2

/-- Claim C5, amended: `cleanup` with `confirm=true` sorts the collected
entry paths by descending string length, and — provided every filesystem
entry strictly below a spec path is itself a spec path (no extraneous
descendants, as after `create` on a fresh base) — the resulting deletion
order never attempts to remove a directory while a descendant path from the
same spec still exists.  Holds for specs of any depth. -/
theorem C5_cleanup_postorder (fs : FS) (base : Path) (st : Entries)
    (hH : ∀ q, fsExists fs q = true →
      (∃ p ∈ collectPaths base st, p <+: q ∧ p ≠ q) → q ∈ collectPaths base st) :
    cleanup_folder_tree fs base st true =
      deleteAll fs (sortDesc (collectPaths base st)) ∧
    List.Pairwise (fun a b => strLen b ≤ strLen a) (sortDesc (collectPaths base st)) ∧
    (∀ sp ∈ runStates fs (sortDesc (collectPaths base st)),
      fsLookup sp.fst sp.snd = Option.some Entry.dir →
      ∀ q ∈ collectPaths base st, sp.snd <+: q → sp.snd ≠ q →
        fsExists sp.fst q = false) := by
  refine ⟨rfl, pairwise_sortDesc _, ?_⟩
  have hne : ∀ q ∈ collectPaths base st, q ≠ [] := by
    intro q hq
    obtain ⟨c, hc, rfl⟩ := collectPaths_extends st base q hq
    intro hnil
    rcases List.append_eq_nil.mp hnil with ⟨-, h2⟩
    exact hc h2
  exact deleteRun_inv (collectPaths base st) fs hH hne
    (sortDesc (collectPaths base st)) fs (pairwise_sortDesc _)
    (fun q hq => hq)
    (fun q hq hnot => absurd ((mem_sortDesc q _).mpr hq) hnot)
    (fun q hq => (mem_sortDesc q _).mp hq)

/-- Counterexample to claim C5 as frozen: with an extraneous non-spec file
inside the deepest spec directory, its `rmdir` fails (caught and logged), and
the subsequent removal attempt on the parent directory happens while the spec
descendant still exists. -/
theorem C5_cleanup_postorder_cex :
    ∃ sp ∈ runStates
        [(["x"], Entry.dir), (["x", "a"], Entry.dir), (["x", "a", "b"], Entry.dir),
         (["x", "a", "b", "z"], Entry.file "")]
        (sortDesc (collectPaths ["x"]
          (Entries.dict "a" (Entries.dict "b" Entries.nil Entries.nil) Entries.nil))),
      fsLookup sp.fst sp.snd = Option.some Entry.dir ∧
      ∃ q ∈ collectPaths ["x"]
          (Entries.dict "a" (Entries.dict "b" Entries.nil Entries.nil) Entries.nil),
        sp.snd <+: q ∧ sp.snd ≠ q ∧ fsExists sp.fst q = true := by
  decide

theorem C5_cleanup_postorder_witness :
    cleanup_folder_tree
        [(["x"], Entry.dir), (["x", "a"], Entry.dir), (["x", "a", "b"], Entry.dir)]
        ["x"] (Entries.dict "a" (Entries.dict "b" Entries.nil Entries.nil) Entries.nil)
        true =
      deleteAll
        [(["x"], Entry.dir), (["x", "a"], Entry.dir), (["x", "a", "b"], Entry.dir)]
        (sortDesc (collectPaths ["x"]
          (Entries.dict "a" (Entries.dict "b" Entries.nil Entries.nil) Entries.nil))) ∧
    List.Pairwise (fun a b => strLen b ≤ strLen a)
      (sortDesc (collectPaths ["x"]
        (Entries.dict "a" (Entries.dict "b" Entries.nil Entries.nil) Entries.nil))) ∧
    (∀ sp ∈ runStates
        [(["x"], Entry.dir), (["x", "a"], Entry.dir), (["x", "a", "b"], Entry.dir)]
        (sortDesc (collectPaths ["x"]
          (Entries.dict "a" (Entries.dict "b" Entries.nil Entries.nil) Entries.nil))),
      fsLookup sp.fst sp.snd = Option.some Entry.dir →
      ∀ q ∈ collectPaths ["x"]
          (Entries.dict "a" (Entries.dict "b" Entries.nil Entries.nil) Entries.nil),
        sp.snd <+: q → sp.snd ≠ q → fsExists sp.fst q = false) := by
  apply C5_cleanup_postorder
  intro q hq hex
  have hmem : q ∈ ([(["x"], Entry.dir), (["x", "a"], Entry.dir),
      (["x", "a", "b"], Entry.dir)] : FS).map Prod.fst :=
    fsExists_mem_keys _ q hq
  simp only [List.map_cons, List.map_nil, List.mem_cons, List.not_mem_nil, or_false] at hmem
  rcases hmem with rfl | rfl | rfl
  · exfalso
    revert hex
    decide
  · decide
  · decide

/-! ### Idempotence of create -/

theorem treeOKb_mono (st : Entries) : ∀ (base : Path) (s s' : FS),
    (∀ x, fsLookup s x = Option.some Entry.dir → fsLookup s' x = Option.some Entry.dir) →
    (∀ x, fsExists s x = true → fsExists s' x = true) →
    treeOKb s base st = true → treeOKb s' base st = true := by
  induction st with
  | nil => intro base s s' _ _ _; rfl
  | dict k sub rest ihsub ihrest =>
      intro base s s' hdir hex h
      have h' : (keyIsMeta k = true ∨
          (fsLookup s (base ++ [k]) = Option.some Entry.dir ∧
            treeOKb s (base ++ [k]) sub = true)) ∧ treeOKb s base rest = true := by
        simpa [treeOKb, Bool.or_eq_true, Bool.and_eq_true_iff, beq_iff_eq] using h
      have hrest := ihrest base s s' hdir hex h'.2
      rcases h'.1 with hk | ⟨hd, hsub⟩
      · simp [treeOKb, hk, hrest]
      · simp [treeOKb, hdir _ hd, ihsub (base ++ [k]) s s' hdir hex hsub, hrest]
  | str k s0 rest ihrest =>
      intro base s s' hdir hex h
      have h' : (keyIsMeta k = true ∨ fsExists s (base ++ [k]) = true) ∧
          treeOKb s base rest = true := by
        simpa [treeOKb, Bool.or_eq_true, Bool.and_eq_true_iff] using h
      have hrest := ihrest base s s' hdir hex h'.2
      rcases h'.1 with hk | he
      · simp [treeOKb, hk, hrest]
      · simp [treeOKb, hex _ he, hrest]
  | int k n rest ihrest =>
      intro base s s' hdir hex h
      have h' : (keyIsMeta k = true ∨ fsExists s (base ++ [k]) = true) ∧
          treeOKb s base rest = true := by
        simpa [treeOKb, Bool.or_eq_true, Bool.and_eq_true_iff] using h
      have hrest := ihrest base s s' hdir hex h'.2
      rcases h'.1 with hk | he
      · simp [treeOKb, hk, hrest]
      · simp [treeOKb, hex _ he, hrest]
  | null k rest ihrest =>
      intro base s s' hdir hex h
      have h' : (keyIsMeta k = true ∨ fsExists s (base ++ [k]) = true) ∧
          treeOKb s base rest = true := by
        simpa [treeOKb, Bool.or_eq_true, Bool.and_eq_true_iff] using h
      have hrest := ihrest base s s' hdir hex h'.2
      rcases h'.1 with hk | he
      · simp [treeOKb, hk, hrest]
      · simp [treeOKb, hex _ he, hrest]

theorem createFileStep_exists_current (fs fsA : FS) (current : Path) (content : String)
    (ow : Bool) (ev : List Event)
    (h : createFileStep fs current content ow = Except.ok (fsA, ev)) :
    fsExists fsA current = true := by
  obtain ⟨fs1, hmk, hcase⟩ := createFileStep_ok fs fsA current content ow ev h
  rcases hcase with ⟨-, hw, -⟩ | ⟨-, rfl, he, -⟩
  · rw [fsExists_iff]
    exact ⟨Entry.file content, by rw [writeFileFS_lookup _ _ _ _ _ hw]; simp⟩
  · exact he

/-- After a successful non-dry creation run, every non-metadata entry of the
spec is materialized: directories as directories, files as existing entries. -/
theorem createLoop_post (st : Entries) :
    ∀ (fs : FS) (base : Path) (ow : Bool) (r : ResultTree) (fs' : FS) (ev : List Event),
      createLoop fs base st ow false = Except.ok (r, fs', ev) →
      treeOKb fs' base st = true := by
  induction st with
  | nil => intro fs base ow r fs' ev h; rfl
  | dict k sub rest ihsub ihrest =>
      intro fs base ow r fs' ev h
      by_cases hk : keyIsMeta k
      · have hr := ihrest fs base ow r fs' ev (by simpa [createLoop, hk] using h)
        simp [treeOKb, hk, hr]
      · simp only [createLoop, hk, Bool.false_eq_true, if_false] at h
        split at h
        · cases h
        next fsA evA hstep =>
          split at h
          · cases h
          next fsB hmk2 =>
            split at h
            · cases h
            next rSub fsC evB hsub =>
              split at h
              · cases h
              next rRest fsD evC hrest =>
                cases h
                obtain ⟨hmkA, -⟩ := createDirStep_ok fs fsA _ sub evA hstep
                have hdirA : fsLookup fsA (base ++ [k]) = Option.some Entry.dir :=
                  mkdirParents_dirs fs fsA _ hmkA (base ++ [k]) (by simp)
                    (List.prefix_refl _)
                have hdirB : fsLookup fsB (base ++ [k]) = Option.some Entry.dir :=
                  mkdirParents_preserve fsA fsB _ _ _ hmk2 hdirA
                have hdirC : fsLookup fsC (base ++ [k]) = Option.some Entry.dir :=
                  createLoop_dir_preserve sub fsB _ ow rSub fsC evB hsub _ hdirB
                have hdirD : fsLookup fs' (base ++ [k]) = Option.some Entry.dir :=
                  createLoop_dir_preserve rest fsC base ow rRest fs' evC hrest _ hdirC
                have hsubOK : treeOKb fsC (base ++ [k]) sub = true :=
                  ihsub fsB (base ++ [k]) ow rSub fsC evB hsub
                have hsubOK' : treeOKb fs' (base ++ [k]) sub = true :=
                  treeOKb_mono sub (base ++ [k]) fsC fs'
                    (fun x hx => createLoop_dir_preserve rest fsC base ow rRest fs' evC hrest x hx)
                    (fun x hx => createLoop_mono rest fsC base ow rRest fs' evC hrest x hx)
                    hsubOK
                have hrestOK : treeOKb fs' base rest = true :=
                  ihrest fsC base ow rRest fs' evC hrest
                simp [treeOKb, hk, hdirD, hsubOK', hrestOK]
  | str k s rest ihrest =>
      intro fs base ow r fs' ev h
      rw [createLoop_str_eq] at h
      by_cases hk : keyIsMeta k
      · have hr := ihrest fs base ow r fs' ev (by simpa [scalarBranch, hk] using h)
        simp [treeOKb, hk, hr]
      · simp only [scalarBranch, hk, Bool.false_eq_true, if_false] at h
        split at h
        · cases h
        next fsA evA hstep =>
          split at h
          · cases h
          next rRest fsC evC hrest =>
            cases h
            have heA : fsExists fsA (base ++ [k]) = true :=
              createFileStep_exists_current fs fsA _ _ ow evA hstep
            have heD : fsExists fs' (base ++ [k]) = true :=
              createLoop_mono rest fsA base ow rRest fs' evC hrest _ heA
            have hrestOK : treeOKb fs' base rest = true :=
              ihrest fsA base ow rRest fs' evC hrest
            simp [treeOKb, hk, heD, hrestOK]
  | int k n rest ihrest =>
      intro fs base ow r fs' ev h
      rw [createLoop_int_eq] at h
      by_cases hk : keyIsMeta k
      · have hr := ihrest fs base ow r fs' ev (by simpa [scalarBranch, hk] using h)
        simp [treeOKb, hk, hr]
      · simp only [scalarBranch, hk, Bool.false_eq_true, if_false] at h
        split at h
        · cases h
        next fsA evA hstep =>
          split at h
          · cases h
          next rRest fsC evC hrest =>
            cases h
            have heA : fsExists fsA (base ++ [k]) = true :=
              createFileStep_exists_current fs fsA _ _ ow evA hstep
            have heD : fsExists fs' (base ++ [k]) = true :=
              createLoop_mono rest fsA base ow rRest fs' evC hrest _ heA
            have hrestOK : treeOKb fs' base rest = true :=
              ihrest fsA base ow rRest fs' evC hrest
            simp [treeOKb, hk, heD, hrestOK]
  | null k rest ihrest =>
      intro fs base ow r fs' ev h
      rw [createLoop_null_eq] at h
      by_cases hk : keyIsMeta k
      · have hr := ihrest fs base ow r fs' ev (by simpa [scalarBranch, hk] using h)
        simp [treeOKb, hk, hr]
      · simp only [scalarBranch, hk, Bool.false_eq_true, if_false] at h
        split at h
        · cases h
        next fsA evA hstep =>
          split at h
          · cases h
          next rRest fsC evC hrest =>
            cases h
            have heA : fsExists fsA (base ++ [k]) = true :=
              createFileStep_exists_current fs fsA _ _ ow evA hstep
            have heD : fsExists fs' (base ++ [k]) = true :=
              createLoop_mono rest fsA base ow rRest fs' evC hrest _ heA
            have hrestOK : treeOKb fs' base rest = true :=
              ihrest fsA base ow rRest fs' evC hrest
            simp [treeOKb, hk, heD, hrestOK]

/-- Re-running the creation loop on a state where the spec is already fully
materialized (with the base's ancestors in place) succeeds, returns the same
result tree, leaves the state untouched, and performs no file write. -/
theorem createLoop_idem (st : Entries) :
    ∀ (fs : FS) (base : Path),
      (∀ q, q ≠ [] → q <+: base → fsLookup fs q = Option.some Entry.dir) →
      treeOKb fs base st = true →
      ∃ ev, createLoop fs base st false false = Except.ok (resultOf base st, fs, ev) ∧
        ∀ p c, ¬ (Event.write p c ∈ ev) := by
  induction st with
  | nil =>
      intro fs base _ _
      exact ⟨[], rfl, by simp⟩
  | dict k sub rest ihsub ihrest =>
      intro fs base hbase hok
      by_cases hk : keyIsMeta k
      · have h' : treeOKb fs base rest = true := by simpa [treeOKb, hk] using hok
        obtain ⟨ev, heq, hw⟩ := ihrest fs base hbase h'
        exact ⟨ev, by simp [createLoop, hk, heq, resultOf], hw⟩
      · have hparts : (fsLookup fs (base ++ [k]) = Option.some Entry.dir ∧
            treeOKb fs (base ++ [k]) sub = true) ∧ treeOKb fs base rest = true := by
          simpa [treeOKb, hk, Bool.and_eq_true_iff, beq_iff_eq] using hok
        obtain ⟨⟨hdir, hsubOK⟩, hrestOK⟩ := hparts
        have hbase' : ∀ q, q ≠ [] → q <+: base ++ [k] →
            fsLookup fs q = Option.some Entry.dir := by
          intro q hq hpre
          rcases prefix_snoc_cases q base k hpre with hb | hqeq
          · exact hbase q hq hb
          · rw [hqeq]
            exact hdir
        have hmkN : mkdirParents fs (base ++ [k]) = Option.some fs :=
          mkdirParents_noop fs _ hbase'
        obtain ⟨evB, hsubEq, hsubW⟩ := ihsub fs (base ++ [k]) hbase' hsubOK
        obtain ⟨evC, hrestEq, hrestW⟩ := ihrest fs base hbase hrestOK
        cases hp : permsOf sub with
        | none =>
            refine ⟨[Event.mkdir (base ++ [k])] ++
              (Event.mkdir (base ++ [k]) :: evB) ++ evC, ?_, ?_⟩
            · simp [createLoop, hk, createDirStep, hmkN, hp, hsubEq, hrestEq, resultOf]
            · intro p c hmem
              simp at hmem
              rcases hmem with h3 | h4
              · exact hsubW p c h3
              · exact hrestW p c h4
        | some m =>
            refine ⟨[Event.mkdir (base ++ [k]), Event.chmod (base ++ [k]) m] ++
              (Event.mkdir (base ++ [k]) :: evB) ++ evC, ?_, ?_⟩
            · simp [createLoop, hk, createDirStep, hmkN, hp, hsubEq, hrestEq, resultOf]
            · intro p c hmem
              simp at hmem
              rcases hmem with h4 | h5
              · exact hsubW p c h4
              · exact hrestW p c h5
  | str k s rest ihrest =>
      intro fs base hbase hok
      by_cases hk : keyIsMeta k
      · have h' : treeOKb fs base rest = true := by simpa [treeOKb, hk] using hok
        obtain ⟨ev, heq, hw⟩ := ihrest fs base hbase h'
        exact ⟨ev, by simp [createLoop_str_eq, scalarBranch, hk, heq, resultOf], hw⟩
      · have hparts : fsExists fs (base ++ [k]) = true ∧ treeOKb fs base rest = true := by
          simpa [treeOKb, hk, Bool.and_eq_true_iff] using hok
        obtain ⟨hex, hrestOK⟩ := hparts
        have hmkN : mkdirParents fs base = Option.some fs :=
          mkdirParents_noop fs base hbase
        obtain ⟨evC, hrestEq, hrestW⟩ := ihrest fs base hbase hrestOK
        refine ⟨Event.mkdir (base ++ [k]).dropLast :: evC, ?_, ?_⟩
        · simp [createLoop_str_eq, scalarBranch, hk, createFileStep, hmkN, hex,
            hrestEq, resultOf]
        · intro p c hmem
          rcases List.mem_cons.mp hmem with h1 | h2
          · cases h1
          · exact hrestW p c h2
  | int k n rest ihrest =>
      intro fs base hbase hok
      by_cases hk : keyIsMeta k
      · have h' : treeOKb fs base rest = true := by simpa [treeOKb, hk] using hok
        obtain ⟨ev, heq, hw⟩ := ihrest fs base hbase h'
        exact ⟨ev, by simp [createLoop_int_eq, scalarBranch, hk, heq, resultOf], hw⟩
      · have hparts : fsExists fs (base ++ [k]) = true ∧ treeOKb fs base rest = true := by
          simpa [treeOKb, hk, Bool.and_eq_true_iff] using hok
        obtain ⟨hex, hrestOK⟩ := hparts
        have hmkN : mkdirParents fs base = Option.some fs :=
          mkdirParents_noop fs base hbase
        obtain ⟨evC, hrestEq, hrestW⟩ := ihrest fs base hbase hrestOK
        refine ⟨Event.mkdir (base ++ [k]).dropLast :: evC, ?_, ?_⟩
        · simp [createLoop_int_eq, scalarBranch, hk, createFileStep, hmkN, hex,
            hrestEq, resultOf]
        · intro p c hmem
          rcases List.mem_cons.mp hmem with h1 | h2
          · cases h1
          · exact hrestW p c h2
  | null k rest ihrest =>
      intro fs base hbase hok
      by_cases hk : keyIsMeta k
      · have h' : treeOKb fs base rest = true := by simpa [treeOKb, hk] using hok
        obtain ⟨ev, heq, hw⟩ := ihrest fs base hbase h'
        exact ⟨ev, by simp [createLoop_null_eq, scalarBranch, hk, heq, resultOf], hw⟩
      · have hparts : fsExists fs (base ++ [k]) = true ∧ treeOKb fs base rest = true := by
          simpa [treeOKb, hk, Bool.and_eq_true_iff] using hok
        obtain ⟨hex, hrestOK⟩ := hparts
        have hmkN : mkdirParents fs base = Option.some fs :=
          mkdirParents_noop fs base hbase
        obtain ⟨evC, hrestEq, hrestW⟩ := ihrest fs base hbase hrestOK
        refine ⟨Event.mkdir (base ++ [k]).dropLast :: evC, ?_, ?_⟩
        · simp [createLoop_null_eq, scalarBranch, hk, createFileStep, hmkN, hex,
            hrestEq, resultOf]
        · intro p c hmem
          rcases List.mem_cons.mp hmem with h1 | h2
          · cases h1
          · exact hrestW p c h2

/-- Claim C6: calling `create` twice with identical base, spec and
`overwrite=false` yields an identical ResultTree both times, the second call
leaves the backend state exactly as it was and performs zero file-content
writes; every file that already existed before the first call keeps its
content. -/
theorem C6_create_idempotent (fs : FS) (base : Path) (st : Entries)
    (r : ResultTree) (fs' : FS) (ev : List Event)
    (h : create_folder_tree fs base st false false = Except.ok (r, fs', ev)) :
    (∃ ev2, create_folder_tree fs' base st false false = Except.ok (r, fs', ev2) ∧
      ∀ p c, ¬ (Event.write p c ∈ ev2)) ∧
    (∀ x c, fsLookup fs x = Option.some (Entry.file c) →
      fsLookup fs' x = Option.some (Entry.file c)) := by
  simp only [create_folder_tree, Bool.false_eq_true, if_false] at h
  split at h
  · cases h
  next fs1 hmk =>
    split at h
    · cases h
    next r2 fs2 ev2 hloop =>
      injection h with h'
      have hr : r2 = r := congrArg (fun t => t.fst) h'
      have hfs : fs2 = fs' := congrArg (fun t => t.snd.fst) h'
      rw [hr, hfs] at hloop
      have hrdet : r = resultOf base st :=
        createLoop_result st fs1 base false r fs' ev2 hloop
      have hbaseDirs1 : ∀ q, q ≠ [] → q <+: base →
          fsLookup fs1 q = Option.some Entry.dir :=
        mkdirParents_dirs fs fs1 base hmk
      have hbaseDirs' : ∀ q, q ≠ [] → q <+: base →
          fsLookup fs' q = Option.some Entry.dir := fun q h1 h2 =>
        createLoop_dir_preserve st fs1 base false r fs' ev2 hloop q (hbaseDirs1 q h1 h2)
      have hOK : treeOKb fs' base st = true :=
        createLoop_post st fs1 base false r fs' ev2 hloop
      obtain ⟨evI, hIeq, hIw⟩ := createLoop_idem st fs' base hbaseDirs' hOK
      constructor
      · refine ⟨Event.mkdir base :: evI, ?_, ?_⟩
        · have hmkN : mkdirParents fs' base = Option.some fs' :=
            mkdirParents_noop fs' base hbaseDirs'
          rw [hrdet]
          simp [create_folder_tree, hmkN, hIeq]
        · intro p c hmem
          rcases List.mem_cons.mp hmem with h1 | h2
          · cases h1
          · exact hIw p c h2
      · intro x c hx
        have h1 : fsLookup fs1 x = Option.some (Entry.file c) :=
          mkdirParents_preserve fs fs1 base x _ hmk hx
        exact createLoop_file_preserve st fs1 base r fs' ev2 hloop x c h1

theorem C6_create_idempotent_witness :
    (∃ ev2, create_folder_tree [(["x", "a"], Entry.file ""), (["x"], Entry.dir)]
        ["x"] (Entries.null "a" Entries.nil) false false =
      Except.ok (ResultTree.leaf "a" ["x", "a"] ResultTree.nil,
        [(["x", "a"], Entry.file ""), (["x"], Entry.dir)], ev2) ∧
      ∀ p c, ¬ (Event.write p c ∈ ev2)) ∧
    (∀ x c, fsLookup ([] : FS) x = Option.some (Entry.file c) →
      fsLookup [(["x", "a"], Entry.file ""), (["x"], Entry.dir)] x =
        Option.some (Entry.file c)) :=
  C6_create_idempotent [] ["x"] (Entries.null "a" Entries.nil)
    (ResultTree.leaf "a" ["x", "a"] ResultTree.nil)
    [(["x", "a"], Entry.file ""), (["x"], Entry.dir)]
    [Event.mkdir ["x"], Event.mkdir ["x"], Event.write ["x", "a"] ""]
    (by rfl)

/-! ### Chain lookups -/

theorem chainLookup_nil_none (st : Entries) : chainLookup st [] = Option.none := by
  cases st <;> rfl

theorem chainLookup_singleton (st : Entries) (k : String) :
    chainLookup st [k] = entryLookup st k := by
  cases st <;> rfl

theorem entryLookup_mem (st : Entries) (k : String) (v : Val)
    (h : entryLookup st k = Option.some v) : k ∈ keysOf st := by
  induction st with
  | nil => cases h
  | dict k1 sub rest ihsub ihrest =>
      by_cases hq : k1 = k
      · simp [keysOf, hq]
      · simp only [keysOf, List.mem_cons]
        exact Or.inr (ihrest (by simpa [entryLookup, hq] using h))
  | str k1 s rest ihrest =>
      by_cases hq : k1 = k
      · simp [keysOf, hq]
      · simp only [keysOf, List.mem_cons]
        exact Or.inr (ihrest (by simpa [entryLookup, hq] using h))
  | int k1 n rest ihrest =>
      by_cases hq : k1 = k
      · simp [keysOf, hq]
      · simp only [keysOf, List.mem_cons]
        exact Or.inr (ihrest (by simpa [entryLookup, hq] using h))
  | null k1 rest ihrest =>
      by_cases hq : k1 = k
      · simp [keysOf, hq]
      · simp only [keysOf, List.mem_cons]
        exact Or.inr (ihrest (by simpa [entryLookup, hq] using h))

theorem chainLookup_head_mem (st : Entries) (k1 : String) (c : List String) (v : Val)
    (h : chainLookup st (k1 :: c) = Option.some v) : k1 ∈ keysOf st := by
  cases c with
  | nil => exact entryLookup_mem st k1 v (by rw [← chainLookup_singleton]; exact h)
  | cons c2 cs =>
      unfold chainLookup at h
      cases he : entryLookup st k1 with
      | none => rw [he] at h; cases h
      | some v1 => exact entryLookup_mem st k1 v1 he

theorem chainLookup_dict_ne (k : String) (sub rest : Entries) (k1 : String)
    (c : List String) (hne : ¬ k = k1) :
    chainLookup (Entries.dict k sub rest) (k1 :: c) = chainLookup rest (k1 :: c) := by
  cases c with
  | nil => simp [chainLookup_singleton, entryLookup, hne]
  | cons c2 cs => simp [chainLookup, entryLookup, hne]

theorem chainLookup_str_ne (k s : String) (rest : Entries) (k1 : String)
    (c : List String) (hne : ¬ k = k1) :
    chainLookup (Entries.str k s rest) (k1 :: c) = chainLookup rest (k1 :: c) := by
  cases c with
  | nil => simp [chainLookup_singleton, entryLookup, hne]
  | cons c2 cs => simp [chainLookup, entryLookup, hne]

theorem chainLookup_int_ne (k : String) (n : Int) (rest : Entries) (k1 : String)
    (c : List String) (hne : ¬ k = k1) :
    chainLookup (Entries.int k n rest) (k1 :: c) = chainLookup rest (k1 :: c) := by
  cases c with
  | nil => simp [chainLookup_singleton, entryLookup, hne]
  | cons c2 cs => simp [chainLookup, entryLookup, hne]

theorem chainLookup_null_ne (k : String) (rest : Entries) (k1 : String)
    (c : List String) (hne : ¬ k = k1) :
    chainLookup (Entries.null k rest) (k1 :: c) = chainLookup rest (k1 :: c) := by
  cases c with
  | nil => simp [chainLookup_singleton, entryLookup, hne]
  | cons c2 cs => simp [chainLookup, entryLookup, hne]

theorem chainLookup_dict_head (k : String) (sub rest : Entries) (c : List String)
    (hc : c ≠ []) :
    chainLookup (Entries.dict k sub rest) (k :: c) = chainLookup sub c := by
  cases c with
  | nil => exact absurd rfl hc
  | cons c2 cs => simp [chainLookup, entryLookup]

/-! ### Which writes a creation run performs -/

/-- Shared argument for the three scalar entry shapes of the write
characterization. -/
theorem scalarBranch_writes (k content : String) (rest st : Entries) (vK : Val)
    (base : Path) (fs : FS) (ow : Bool) (r : ResultTree) (fs' : FS) (ev : List Event)
    (hk : ¬ keyIsMeta k = true)
    (hbr : scalarBranch fs base k content rest ow false = Except.ok (r, fs', ev))
    (hvK : isDict vK = false) (hcont : content = contentOfVal vK)
    (hsingle : chainLookup st [k] = Option.some vK)
    (hskip : ∀ k1 c, ¬ k = k1 →
      chainLookup st (k1 :: c) = chainLookup rest (k1 :: c))
    (hkmem : ¬ k ∈ keysOf rest)
    (hwfrest : wfKeys rest = true)
    (ihrest : ∀ (fs0 : FS) (r0 : ResultTree) (fs0' : FS) (ev0 : List Event),
      wfKeys rest = true →
      createLoop fs0 base rest ow false = Except.ok (r0, fs0', ev0) →
      ∀ p c, Event.write p c ∈ ev0 →
        ∃ chain v, p = base ++ chain ∧ chainLookup rest chain = Option.some v ∧
          isDict v = false ∧ c = contentOfVal v ∧
          (ow = true ∨ fsExists fs0 p = false)) :
    ∀ p c, Event.write p c ∈ ev →
      ∃ chain v, p = base ++ chain ∧ chainLookup st chain = Option.some v ∧
        isDict v = false ∧ c = contentOfVal v ∧
        (ow = true ∨ fsExists fs p = false) := by
  simp only [scalarBranch, hk, Bool.false_eq_true, if_false] at hbr
  split at hbr
  · cases hbr
  next fsA evA hstep =>
    split at hbr
    · cases hbr
    next rRest fsC evC hrest =>
      cases hbr
      intro p c hmem
      rcases List.mem_append.mp hmem with hA | hC
      · -- the event belongs to this entry's own file step
        obtain ⟨fs1, hmk, hcase⟩ := createFileStep_ok fs fsA _ content ow evA hstep
        rcases hcase with ⟨hev, hw, hcond⟩ | ⟨hev, -, -, -⟩
        · rw [hev] at hA
          simp only [List.mem_cons, List.not_mem_nil, or_false] at hA
          rcases hA with h1 | h2
          · cases h1
          · have hp : p = base ++ [k] ∧ c = content := by
              injection h2 with hp1 hp2
              exact ⟨hp1, hp2⟩
            refine ⟨[k], vK, hp.1, hsingle, hvK, hp.2.trans hcont, ?_⟩
            rcases Bool.or_eq_true_iff.mp hcond with hno | how
            · right
              rw [hp.1]
              cases hfs : fsExists fs (base ++ [k])
              · rfl
              · have := mkdirParents_mono fs fs1 _ _ hmk hfs
                simp [this] at hno
            · exact Or.inl how
        · rw [hev] at hA
          simp at hA
      · obtain ⟨chain, v, hp, hcl, hvd, hcv, hcond⟩ :=
          ihrest fsA rRest fs' evC hwfrest hrest p c hC
        have hchain : ∃ k1 cs, chain = k1 :: cs := by
          cases chain with
          | nil => rw [chainLookup_nil_none] at hcl; cases hcl
          | cons k1 cs => exact ⟨k1, cs, rfl⟩
        obtain ⟨k1, cs, rfl⟩ := hchain
        have hk1 : k1 ∈ keysOf rest := chainLookup_head_mem rest k1 cs v hcl
        have hne : ¬ k = k1 := fun h => hkmem (h ▸ hk1)
        refine ⟨k1 :: cs, v, hp, by rw [hskip k1 cs hne]; exact hcl, hvd, hcv, ?_⟩
        rcases hcond with how | hno
        · exact Or.inl how
        · right
          cases hfs : fsExists fs p
          · rfl
          · rw [createFileStep_mono fs fsA _ content ow evA hstep p hfs] at hno
            cases hno

/-- Every write event of a successful non-dry creation loop targets a file
entry of the spec (addressed by a chain of keys), carries exactly that entry's
content, and can only happen when `overwrite` is set or the file was absent in
the initial state. -/
theorem createLoop_writes (st : Entries) :
    ∀ (fs : FS) (base : Path) (ow : Bool) (r : ResultTree) (fs' : FS) (ev : List Event),
      wfKeys st = true →
      createLoop fs base st ow false = Except.ok (r, fs', ev) →
      ∀ p c, Event.write p c ∈ ev →
        ∃ chain v, p = base ++ chain ∧ chainLookup st chain = Option.some v ∧
          isDict v = false ∧ c = contentOfVal v ∧
          (ow = true ∨ fsExists fs p = false) := by
  induction st with
  | nil =>
      intro fs base ow r fs' ev _ h p c hmem
      cases h
      cases hmem
  | dict k sub rest ihsub ihrest =>
      intro fs base ow r fs' ev hwf h p c hmem
      obtain ⟨hkmem, hwsub, hwrest⟩ := wfKeys_dict_parts k sub rest hwf
      by_cases hk : keyIsMeta k
      · obtain ⟨chain, v, hp, hcl, hvd, hcv, hcond⟩ :=
          ihrest fs base ow r fs' ev hwrest (by simpa [createLoop, hk] using h) p c hmem
        have hchain : ∃ k1 cs, chain = k1 :: cs := by
          cases chain with
          | nil => rw [chainLookup_nil_none] at hcl; cases hcl
          | cons k1 cs => exact ⟨k1, cs, rfl⟩
        obtain ⟨k1, cs, rfl⟩ := hchain
        have hne : ¬ k = k1 :=
          fun heq => hkmem (heq ▸ chainLookup_head_mem rest k1 cs v hcl)
        exact ⟨k1 :: cs, v, hp, by rw [chainLookup_dict_ne k sub rest k1 cs hne]; exact hcl,
          hvd, hcv, hcond⟩
      · simp only [createLoop, hk, Bool.false_eq_true, if_false] at h
        split at h
        · cases h
        next fsA evA hstep =>
          split at h
          · cases h
          next fsB hmk2 =>
            split at h
            · cases h
            next rSub fsC evB hsub =>
              split at h
              · cases h
              next rRest fsD evC hrest =>
                cases h
                have hmono1 : ∀ x, fsExists fs x = true → fsExists fsB x = true :=
                  fun x hx => mkdirParents_mono fsA fsB _ x hmk2
                    (createDirStep_mono fs fsA _ sub evA hstep x hx)
                have hmono2 : ∀ x, fsExists fs x = true → fsExists fsC x = true :=
                  fun x hx => createLoop_mono sub fsB _ ow rSub fsC evB hsub x (hmono1 x hx)
                rcases List.mem_append.mp hmem with hAB | hC
                · rcases List.mem_append.mp hAB with hA | hB
                  · -- mkdir/chmod events of the directory step carry no write
                    exfalso
                    obtain ⟨-, hevs⟩ := createDirStep_ok fs fsA _ sub evA hstep
                    rcases hevs with rfl | ⟨m, rfl⟩ <;> simp at hA
                  · rcases List.mem_cons.mp hB with h1 | hB2
                    · cases h1
                    · obtain ⟨chain, v, hp, hcl, hvd, hcv, hcond⟩ :=
                        ihsub fsB (base ++ [k]) ow rSub fsC evB hwsub hsub p c hB2
                      have hchain : ∃ k1 cs, chain = k1 :: cs := by
                        cases chain with
                        | nil => rw [chainLookup_nil_none] at hcl; cases hcl
                        | cons k1 cs => exact ⟨k1, cs, rfl⟩
                      obtain ⟨k1, cs, rfl⟩ := hchain
                      refine ⟨k :: k1 :: cs, v, ?_, ?_, hvd, hcv, ?_⟩
                      · rw [hp, List.append_assoc]
                        rfl
                      · rw [chainLookup_dict_head k sub rest (k1 :: cs) (by simp)]
                        exact hcl
                      · rcases hcond with how | hno
                        · exact Or.inl how
                        · right
                          cases hfs : fsExists fs p
                          · rfl
                          · rw [hmono1 p hfs] at hno
                            cases hno
                · obtain ⟨chain, v, hp, hcl, hvd, hcv, hcond⟩ :=
                    ihrest fsC base ow rRest fs' evC hwrest hrest p c hC
                  have hchain : ∃ k1 cs, chain = k1 :: cs := by
                    cases chain with
                    | nil => rw [chainLookup_nil_none] at hcl; cases hcl
                    | cons k1 cs => exact ⟨k1, cs, rfl⟩
                  obtain ⟨k1, cs, rfl⟩ := hchain
                  have hne : ¬ k = k1 :=
                    fun heq => hkmem (heq ▸ chainLookup_head_mem rest k1 cs v hcl)
                  refine ⟨k1 :: cs, v, hp,
                    by rw [chainLookup_dict_ne k sub rest k1 cs hne]; exact hcl,
                    hvd, hcv, ?_⟩
                  rcases hcond with how | hno
                  · exact Or.inl how
                  · right
                    cases hfs : fsExists fs p
                    · rfl
                    · rw [hmono2 p hfs] at hno
                      cases hno
  | str k s rest ihrest =>
      intro fs base ow r fs' ev hwf h p c hmem
      obtain ⟨hkmem, hwrest⟩ := wfKeys_str_parts k s rest hwf
      rw [createLoop_str_eq] at h
      by_cases hk : keyIsMeta k
      · obtain ⟨chain, v, hp, hcl, hvd, hcv, hcond⟩ :=
          ihrest fs base ow r fs' ev hwrest (by simpa [scalarBranch, hk] using h) p c hmem
        have hchain : ∃ k1 cs, chain = k1 :: cs := by
          cases chain with
          | nil => rw [chainLookup_nil_none] at hcl; cases hcl
          | cons k1 cs => exact ⟨k1, cs, rfl⟩
        obtain ⟨k1, cs, rfl⟩ := hchain
        have hne : ¬ k = k1 :=
          fun heq => hkmem (heq ▸ chainLookup_head_mem rest k1 cs v hcl)
        exact ⟨k1 :: cs, v, hp,
          by rw [chainLookup_str_ne k s rest k1 cs hne]; exact hcl, hvd, hcv, hcond⟩
      · exact scalarBranch_writes k (contentOfStr s) rest (Entries.str k s rest)
          (Val.str s) base fs ow r fs' ev hk h rfl rfl
          (by rw [chainLookup_singleton]; simp [entryLookup])
          (fun k1 c hne => chainLookup_str_ne k s rest k1 c hne) hkmem hwrest
          (fun fs0 r0 fs0' ev0 hwf0 h0 => ihrest fs0 base ow r0 fs0' ev0 hwf0 h0)
          p c hmem
  | int k n rest ihrest =>
      intro fs base ow r fs' ev hwf h p c hmem
      obtain ⟨hkmem, hwrest⟩ := wfKeys_int_parts k n rest hwf
      rw [createLoop_int_eq] at h
      by_cases hk : keyIsMeta k
      · obtain ⟨chain, v, hp, hcl, hvd, hcv, hcond⟩ :=
          ihrest fs base ow r fs' ev hwrest (by simpa [scalarBranch, hk] using h) p c hmem
        have hchain : ∃ k1 cs, chain = k1 :: cs := by
          cases chain with
          | nil => rw [chainLookup_nil_none] at hcl; cases hcl
          | cons k1 cs => exact ⟨k1, cs, rfl⟩
        obtain ⟨k1, cs, rfl⟩ := hchain
        have hne : ¬ k = k1 :=
          fun heq => hkmem (heq ▸ chainLookup_head_mem rest k1 cs v hcl)
        exact ⟨k1 :: cs, v, hp,
          by rw [chainLookup_int_ne k n rest k1 cs hne]; exact hcl, hvd, hcv, hcond⟩
      · exact scalarBranch_writes k "" rest (Entries.int k n rest)
          (Val.int n) base fs ow r fs' ev hk h rfl rfl
          (by rw [chainLookup_singleton]; simp [entryLookup])
          (fun k1 c hne => chainLookup_int_ne k n rest k1 c hne) hkmem hwrest
          (fun fs0 r0 fs0' ev0 hwf0 h0 => ihrest fs0 base ow r0 fs0' ev0 hwf0 h0)
          p c hmem
  | null k rest ihrest =>
      intro fs base ow r fs' ev hwf h p c hmem
      obtain ⟨hkmem, hwrest⟩ := wfKeys_null_parts k rest hwf
      rw [createLoop_null_eq] at h
      by_cases hk : keyIsMeta k
      · obtain ⟨chain, v, hp, hcl, hvd, hcv, hcond⟩ :=
          ihrest fs base ow r fs' ev hwrest (by simpa [scalarBranch, hk] using h) p c hmem
        have hchain : ∃ k1 cs, chain = k1 :: cs := by
          cases chain with
          | nil => rw [chainLookup_nil_none] at hcl; cases hcl
          | cons k1 cs => exact ⟨k1, cs, rfl⟩
        obtain ⟨k1, cs, rfl⟩ := hchain
        have hne : ¬ k = k1 :=
          fun heq => hkmem (heq ▸ chainLookup_head_mem rest k1 cs v hcl)
        exact ⟨k1 :: cs, v, hp,
          by rw [chainLookup_null_ne k rest k1 cs hne]; exact hcl, hvd, hcv, hcond⟩
      · exact scalarBranch_writes k "" rest (Entries.null k rest)
          Val.null base fs ow r fs' ev hk h rfl rfl
          (by rw [chainLookup_singleton]; simp [entryLookup])
          (fun k1 c hne => chainLookup_null_ne k rest k1 c hne) hkmem hwrest
          (fun fs0 r0 fs0' ev0 hwf0 h0 => ihrest fs0 base ow r0 fs0' ev0 hwf0 h0)
          p c hmem

/-- Claim C9: `create` writes a file only when it does not yet exist at the
child path or `overwrite` is set, and any written content is the scalar
string value when that value is a string different from the sentinels (the
empty string and the literal "file" marker), and the empty string otherwise:
every write event of a successful run targets a file entry of the spec,
carries that entry's computed content, and requires overwrite or prior
absence. -/
theorem C9_create_write_conditions (fs : FS) (base : Path) (st : Entries) (ow : Bool)
    (r : ResultTree) (fs' : FS) (ev : List Event)
    (hwf : wfKeys st = true)
    (h : create_folder_tree fs base st ow false = Except.ok (r, fs', ev)) :
    ∀ p c, Event.write p c ∈ ev →
      ∃ chain v, p = base ++ chain ∧ chainLookup st chain = Option.some v ∧
        isDict v = false ∧ c = contentOfVal v ∧
        (ow = true ∨ fsExists fs p = false) := by
  simp only [create_folder_tree, Bool.false_eq_true, if_false] at h
  split at h
  · cases h
  next fs1 hmk =>
    split at h
    · cases h
    next r2 fs2 ev2 hloop =>
      injection h with h'
      have hev : Event.mkdir base :: ev2 = ev := congrArg (fun t => t.snd.snd) h'
      intro p c hmem
      rw [← hev] at hmem
      rcases List.mem_cons.mp hmem with h1 | h2
      · cases h1
      · obtain ⟨chain, v, hp, hcl, hvd, hcv, hcond⟩ :=
          createLoop_writes st fs1 base ow r2 fs2 ev2 hwf hloop p c h2
        refine ⟨chain, v, hp, hcl, hvd, hcv, ?_⟩
        rcases hcond with how | hno
        · exact Or.inl how
        · right
          cases hfs : fsExists fs p
          · rfl
          · rw [mkdirParents_mono fs fs1 base p hmk hfs] at hno
            cases hno

theorem C9_create_write_conditions_witness :
    ∃ chain v, (["b", "f"] : Path) = ["b"] ++ chain ∧
      chainLookup (Entries.str "f" "hello" Entries.nil) chain = Option.some v ∧
      isDict v = false ∧ "hello" = contentOfVal v ∧
      (false = true ∨ fsExists ([] : FS) ["b", "f"] = false) :=
  C9_create_write_conditions [] ["b"] (Entries.str "f" "hello" Entries.nil) false
    (ResultTree.leaf "f" ["b", "f"] ResultTree.nil)
    [(["b", "f"], Entry.file "hello"), (["b"], Entry.dir)]
    [Event.mkdir ["b"], Event.mkdir ["b"], Event.write ["b", "f"] "hello"]
    (by rfl) (by rfl) ["b", "f"] "hello" (by decide)

/-! ### The pathlib join on plain names, and claim C10 -/

theorem plainKeyb_parts (k : String) (h : plainKeyb k = true) :
    ¬ k = "" ∧ ¬ k = "." ∧ ¬ ('/') ∈ k.data := by
  have h' : ((¬ k = "" ∧ ¬ k = ".") ∧ ¬ k = "..") ∧ ¬ ('/') ∈ k.data := by
    simpa [plainKeyb] using h
  exact ⟨h'.1.1.1, h'.1.1.2, h'.2⟩

theorem splitSlashAux_no_slash (l : List Char) : ∀ (acc : List Char), ¬ ('/') ∈ l →
    splitSlashAux l acc = [String.mk (acc.reverse ++ l)] := by
  induction l with
  | nil => intro acc _; simp [splitSlashAux]
  | cons c rest ih =>
      intro acc h
      have hc : ¬ c = ('/') := by
        intro hh
        apply h
        rw [hh]
        exact List.mem_cons_self _ _
      have hr : ¬ ('/') ∈ rest := fun hh => h (List.mem_cons_of_mem _ hh)
      simp only [splitSlashAux]
      rw [if_neg hc, ih (c :: acc) hr]
      simp [List.reverse_cons, List.append_assoc]

theorem keySegs_plain (k : String) (h : plainKeyb k = true) : keySegs k = [k] := by
  obtain ⟨h1, h2, h4⟩ := plainKeyb_parts k h
  unfold keySegs
  rw [splitSlashAux_no_slash k.data [] h4]
  have hmk : String.mk k.data = k := rfl
  simp only [List.reverse_nil, List.nil_append, hmk]
  simp [List.filter_cons, h1, h2]

theorem pyJoin_plain (cb : Path) (k : String) (h : plainKeyb k = true) :
    pyJoin cb k = cb ++ [k] := by
  obtain ⟨d⟩ := k
  obtain ⟨h1, -, h4⟩ := plainKeyb_parts _ h
  have hseg := keySegs_plain _ h
  cases d with
  | nil => exact absurd (by decide) h1
  | cons c cs =>
      have hc : ¬ c = ('/') := by
        intro hh
        apply h4
        show ('/') ∈ c :: cs
        rw [hh]
        exact List.mem_cons_self _ _
      show (if c = ('/') then keySegs (String.mk (c :: cs))
            else cb ++ keySegs (String.mk (c :: cs))) = cb ++ [String.mk (c :: cs)]
      rw [if_neg hc, hseg]

theorem collectPathsPy_plain (st : Entries) :
    ∀ (cb : Path), plainKeysb st = true → collectPathsPy cb st = collectPaths cb st := by
  induction st with
  | nil => intro cb _; rfl
  | dict k sub rest ihsub ihrest =>
      intro cb hp
      have hp' : (keyIsMeta k = true ∨ (plainKeyb k = true ∧ plainKeysb sub = true)) ∧
          plainKeysb rest = true := by
        simpa [plainKeysb] using hp
      by_cases hk : keyIsMeta k
      · simp [collectPathsPy, collectPaths, hk, ihrest cb hp'.2]
      · rcases hp'.1 with hk1 | ⟨hpk, hpsub⟩
        · exact absurd hk1 hk
        · simp [collectPathsPy, collectPaths, hk, pyJoin_plain cb k hpk,
            ihsub (cb ++ [k]) hpsub, ihrest cb hp'.2]
  | str k s rest ihrest =>
      intro cb hp
      have hp' : (keyIsMeta k = true ∨ plainKeyb k = true) ∧ plainKeysb rest = true := by
        simpa [plainKeysb] using hp
      by_cases hk : keyIsMeta k
      · simp [collectPathsPy, collectPaths, hk, ihrest cb hp'.2]
      · rcases hp'.1 with hk1 | hpk
        · exact absurd hk1 hk
        · simp [collectPathsPy, collectPaths, hk, pyJoin_plain cb k hpk, ihrest cb hp'.2]
  | int k n rest ihrest =>
      intro cb hp
      have hp' : (keyIsMeta k = true ∨ plainKeyb k = true) ∧ plainKeysb rest = true := by
        simpa [plainKeysb] using hp
      by_cases hk : keyIsMeta k
      · simp [collectPathsPy, collectPaths, hk, ihrest cb hp'.2]
      · rcases hp'.1 with hk1 | hpk
        · exact absurd hk1 hk
        · simp [collectPathsPy, collectPaths, hk, pyJoin_plain cb k hpk, ihrest cb hp'.2]
  | null k rest ihrest =>
      intro cb hp
      have hp' : (keyIsMeta k = true ∨ plainKeyb k = true) ∧ plainKeysb rest = true := by
        simpa [plainKeysb] using hp
      by_cases hk : keyIsMeta k
      · simp [collectPathsPy, collectPaths, hk, ihrest cb hp'.2]
      · rcases hp'.1 with hk1 | hpk
        · exact absurd hk1 hk
        · simp [collectPathsPy, collectPaths, hk, pyJoin_plain cb k hpk, ihrest cb hp'.2]

/-- Counterexample to claim C10 as frozen: pathlib collapses the empty key,
`base / "" == base`, so for the spec whose single key is "" the cleanup run
collects the resolved base path itself, attempts its removal — and, the base
being empty, performs it: the base entry that existed beforehand no longer
exists afterwards. -/
theorem C10_cleanup_frame_cex :
    Event.removeDir ["x"] ∈
      (cleanup_folder_tree_py [(["x"], Entry.dir)] ["x"]
        (Entries.null "" Entries.nil) true).snd ∧
    fsLookup (cleanup_folder_tree_py [(["x"], Entry.dir)] ["x"]
        (Entries.null "" Entries.nil) true).fst ["x"] = Option.none ∧
    fsLookup [(["x"], Entry.dir)] ["x"] = Option.some Entry.dir := by
  decide

/-- Claim C10, amended: `cleanup` with `confirm=true` only ever attempts to
remove paths obtained by joining the base with keys named in the spec; when
every non-metadata key is a plain name (nonempty, not "." or "..", without a
slash) — so that no key collapses onto or escapes the base under pathlib's
join — every such path properly extends the base and the resolved base path
itself is never removed: its entry is the same after cleanup completes. -/
theorem C10_cleanup_frame_plain (fs : FS) (base : Path) (st : Entries)
    (hp : plainKeysb st = true) :
    (∀ e ∈ (cleanup_folder_tree_py fs base st true).snd,
      ∃ p, (e = Event.removeFile p ∨ e = Event.removeDir p) ∧
        p ∈ collectPathsPy base st) ∧
    (∀ p ∈ collectPathsPy base st, base <+: p ∧ p ≠ base) ∧
    fsLookup (cleanup_folder_tree_py fs base st true).fst base = fsLookup fs base := by
  have hcoll : collectPathsPy base st = collectPaths base st :=
    collectPathsPy_plain st base hp
  have hclean : cleanup_folder_tree_py fs base st true =
      deleteAll fs (sortDesc (collectPaths base st)) := by
    show deleteAll fs (sortDesc (collectPathsPy base st)) = _
    rw [hcoll]
  have hext : ∀ p ∈ collectPaths base st, base <+: p ∧ p ≠ base := by
    intro p hpmem
    obtain ⟨c, hc, rfl⟩ := collectPaths_extends st base p hpmem
    refine ⟨⟨c, rfl⟩, ?_⟩
    intro h
    have hcz : c = [] := by
      have h2 : base ++ c = base ++ [] := by simpa using h
      exact List.append_cancel_left h2
    exact hc hcz
  refine ⟨?_, ?_, ?_⟩
  · intro e he
    rw [hclean] at he
    obtain ⟨p, hp1, hp2⟩ := deleteAll_events _ fs e he
    exact ⟨p, hp1, by rw [hcoll]; exact (mem_sortDesc p _).mp hp2⟩
  · intro p hpmem
    rw [hcoll] at hpmem
    exact hext p hpmem
  · rw [hclean]
    apply deleteAll_lookup_not_mem
    intro hmem
    exact (hext base ((mem_sortDesc base _).mp hmem)).2 rfl

theorem C10_cleanup_frame_plain_witness :
    (∀ e ∈ (cleanup_folder_tree_py [(["x"], Entry.dir), (["x", "a"], Entry.file "")]
        ["x"] (Entries.null "a" Entries.nil) true).snd,
      ∃ p, (e = Event.removeFile p ∨ e = Event.removeDir p) ∧
        p ∈ collectPathsPy ["x"] (Entries.null "a" Entries.nil)) ∧
    (∀ p ∈ collectPathsPy ["x"] (Entries.null "a" Entries.nil),
      (["x"] : Path) <+: p ∧ p ≠ ["x"]) ∧
    fsLookup (cleanup_folder_tree_py [(["x"], Entry.dir), (["x", "a"], Entry.file "")]
      ["x"] (Entries.null "a" Entries.nil) true).fst ["x"] =
      fsLookup [(["x"], Entry.dir), (["x", "a"], Entry.file "")] ["x"] :=
  C10_cleanup_frame_plain [(["x"], Entry.dir), (["x", "a"], Entry.file "")]
    ["x"] (Entries.null "a" Entries.nil) (by decide)

end FolderTree
